import Mathlib

/-!
Verification of the `stan-context` dependency-graph library.

We shallowly embed the TypeScript sources:

* JavaScript objects used as string-keyed records become association lists
  (`Record α`), iterated in insertion order as `Object.entries` does.
* JavaScript `Set` objects become duplicate-free lists in insertion order.
* JavaScript numbers become `JsNum` (a finite rational or one of the
  non-finite values `NaN`, `Infinity`, `-Infinity`).
* `String.prototype.localeCompare` is modelled as code-point lexicographic
  comparison, the deterministic reading used throughout the specification.
* File-system probes (`package.json` discovery, re-hashing) become oracle
  functions passed in as parameters.
-/

set_option maxHeartbeats 1000000

namespace StanContext

/-- JavaScript number: a finite rational or one of the non-finite values. -/
inductive JsNum where
  | fin (q : ℚ)
  | nan
  | posInf
  | negInf
  deriving DecidableEq, Repr

/-- `Number.isFinite`. -/
def JsNum.isFinite : JsNum → Bool
  | .fin _ => true
  | _ => false

/-- String-keyed record in insertion order (JS object via `Object.entries`). -/
abbrev Record (α : Type) := List (String × α)

/-- First-match association-list lookup (`rec[key]`, unique keys in practice). -/
def rlookup {α : Type} : Record α → String → Option α
  | [], _ => none
  | (k, v) :: rest, key => if k = key then some v else rlookup rest key

/-- `Map.set` / object assignment: replace the first binding or append. -/
def rset {α : Type} : Record α → String → α → Record α
  | [], key, v => [(key, v)]
  | (k, w) :: rest, key, v =>
    if k = key then (k, v) :: rest else (k, w) :: rset rest key v

/-- JS `Set.add`: append when not already present. -/
def setAdd (s : List String) (x : String) : List String :=
  if x ∈ s then s else s ++ [x]

/-- `String(n)` for a natural count. -/
def natStr (n : ℕ) : String := toString n

/-! ### `core/errors.ts` -/

/-- `capErrors(errors, maxErrors)` from `core/errors.ts`. -/
def capErrors (errors : List String) (maxErrors : JsNum) : List String :=
  match maxErrors with
  | .fin q =>
    let max : ℤ := Max.max 0 ⌊q⌋
    if max = 0 then []
    else if (errors.length : ℤ) ≤ max then errors
    else if max = 1 then ["errors truncated: " ++ natStr errors.length ++ " total"]
    else
      let shown : ℤ := max - 1
      errors.take shown.toNat ++
        ["errors truncated: showing " ++ natStr shown.toNat ++ " of " ++ natStr errors.length]
  | _ => errors

/-! ### Graph schema (`types.ts`) -/

/-- `GraphNodeKind` from `types.ts`. -/
inductive GraphNodeKind where
  | source
  | external
  | builtin
  | missing
  deriving DecidableEq, Repr

/-- `GraphLanguage` from `types.ts`. -/
inductive GraphLanguage where
  | ts
  | js
  | json
  | md
  | other
  deriving DecidableEq, Repr

/-- `GraphEdgeKind` from `types.ts`. -/
inductive GraphEdgeKind where
  | runtime
  | type
  | dynamic
  deriving DecidableEq, Repr

/-- `GraphEdgeResolution` from `types.ts`. -/
inductive GraphEdgeResolution where
  | explicit
  | implicit
  deriving DecidableEq, Repr

/-- `GraphNodeMetadata` from `types.ts` (sparse fields; `isOutsideRoot?: true`
is modelled as a `Bool` that is `true` exactly when the field is present). -/
structure GraphNodeMetadata where
  hash : Option String
  isOutsideRoot : Bool
  size : Option JsNum
  deriving DecidableEq, Repr

/-- `GraphNode` from `types.ts`. -/
structure GraphNode where
  id : String
  kind : GraphNodeKind
  language : GraphLanguage
  description : Option String
  metadata : Option GraphNodeMetadata
  deriving DecidableEq, Repr

/-- `GraphEdge` from `types.ts`. -/
structure GraphEdge where
  target : String
  kind : GraphEdgeKind
  resolution : GraphEdgeResolution
  deriving DecidableEq, Repr

/-- `DependencyGraph` from `types.ts`. -/
structure DependencyGraph where
  nodes : Record GraphNode
  edges : Record (List GraphEdge)
  deriving DecidableEq, Repr

/-! ### `core/nodes.ts` and `core/finalize.ts` -/

/-- The whitespace class removed by `String.prototype.trim`. -/
def isJsWhitespace (c : Char) : Bool :=
  c = ' ' || c = '\t' || c = '\n' || c = '\r' ||
    c = Char.ofNat 11 || c = Char.ofNat 12 || c = Char.ofNat 160

/-- `String.prototype.trim` on the underlying character list. -/
def trimChars (l : List Char) : List Char :=
  List.rdropWhile isJsWhitespace (l.dropWhile isJsWhitespace)

/-- `String.prototype.trim`. -/
def trimString (s : String) : String := String.mk (trimChars s.data)

/-- `if (hash) out.hash = hash`: JS truthiness on an optional string, so an
empty-string hash is dropped. -/
def truthyStr (hash : Option String) : Option String :=
  match hash with
  | some s => if s = "" then none else some s
  | none => none

/-- `makeMetadata` from `core/nodes.ts`. Returns `none` when no field
survives (`Object.keys(out).length ? out : undefined`). -/
def makeMetadata (hash : Option String) (isOutsideRoot : Bool) (size : Option JsNum) :
    Option GraphNodeMetadata :=
  if truthyStr hash = none ∧ isOutsideRoot = false ∧ size = none then none
  else some { hash := truthyStr hash, isOutsideRoot := isOutsideRoot, size := size }

/-- `typeof d === 'string' && d.trim() ? d.trim() : undefined`: the
description normalization shared by `makeNode` and `normalizeNode`. -/
def normDesc (description : Option String) : Option String :=
  match description with
  | some s => if trimString s = "" then none else some (trimString s)
  | none => none

/-- `makeNode` from `core/nodes.ts` (descriptions are trimmed and dropped when
empty; metadata is passed through when present). -/
def makeNode (id : String) (kind : GraphNodeKind) (language : GraphLanguage)
    (description : Option String) (metadata : Option GraphNodeMetadata) : GraphNode :=
  { id := id, kind := kind, language := language,
    description := normDesc description,
    metadata := metadata }

/-- The metadata rebuild step of `normalizeNode`
(`n.metadata ? makeMetadata({...}) : undefined`). -/
def normMd (o : Option GraphNodeMetadata) : Option GraphNodeMetadata :=
  match o with
  | some m => makeMetadata m.hash (m.isOutsideRoot == true) m.size
  | none => none

/-- `normalizeNode` from `core/finalize.ts`. -/
def normalizeNode (n : GraphNode) : GraphNode :=
  makeNode n.id n.kind n.language (normDesc n.description) (normMd n.metadata)

/-- Code-point lexicographic comparison of strings (the deterministic model of
`localeCompare`), phrased on the underlying character lists so that it is
kernel-computable. -/
def strLE (a b : String) : Prop := a.data ≤ b.data

instance : DecidableRel strLE := fun a b =>
  show Decidable (a.data ≤ b.data) from inferInstance

instance : IsTotal String strLE := ⟨fun a b => le_total a.data b.data⟩

instance : IsTrans String strLE := ⟨fun _ _ _ hab hbc => le_trans hab hbc⟩

/-- `Object.keys(rec).sort((a, b) => a.localeCompare(b))` with `localeCompare`
modelled as code-point lexicographic comparison. -/
def sortStrings (l : List String) : List String := l.insertionSort strLE

/-- `sortKeys` from `core/finalize.ts`: rebuild the record in ascending key
order, reading each value back from the original record. -/
def sortKeys {α : Type} (rec : Record α) : Record α :=
  (sortStrings (rec.map Prod.fst)).filterMap fun k => (rlookup rec k).map fun v => (k, v)

/-- Serialized form of a `GraphEdgeKind`. -/
def edgeKindStr : GraphEdgeKind → String
  | .runtime => "runtime"
  | .type => "type"
  | .dynamic => "dynamic"

/-- Serialized form of a `GraphEdgeResolution`. -/
def edgeResolutionStr : GraphEdgeResolution → String
  | .explicit => "explicit"
  | .implicit => "implicit"

/-- The de-duplication key `${target}\0${kind}\0${resolution}`. -/
def edgeSortKey (e : GraphEdge) : String :=
  e.target ++ "\x00" ++ edgeKindStr e.kind ++ "\x00" ++ edgeResolutionStr e.resolution

/-- The comparison key of the edge comparator in `sortAndDedupeEdges`:
target first, then kind, then resolution, lexicographically (on character
lists, so that the order is kernel-computable). -/
def edgeLexKey (e : GraphEdge) : Lex (List Char × Lex (List Char × List Char)) :=
  toLex (e.target.data, toLex ((edgeKindStr e.kind).data, (edgeResolutionStr e.resolution).data))

/-- The (total) order realized by the edge comparator. -/
def EdgeLE (a b : GraphEdge) : Prop := edgeLexKey a ≤ edgeLexKey b

instance : DecidableRel EdgeLE := fun a b =>
  show Decidable (edgeLexKey a ≤ edgeLexKey b) from inferInstance

instance : IsTotal GraphEdge EdgeLE :=
  ⟨fun a b => le_total (edgeLexKey a) (edgeLexKey b)⟩

instance : IsTrans GraphEdge EdgeLE :=
  ⟨fun _ _ _ hab hbc => le_trans hab hbc⟩

/-- The de-duplication pass of `sortAndDedupeEdges` (`seen` is the JS `Set`). -/
def dedupeEdgesAux : List GraphEdge → List String → List GraphEdge
  | [], _ => []
  | e :: rest, seen =>
    if edgeSortKey e ∈ seen then dedupeEdgesAux rest seen
    else e :: dedupeEdgesAux rest (edgeSortKey e :: seen)

/-- `sortAndDedupeEdges` from `core/finalize.ts`. -/
def sortAndDedupeEdges (edges : List GraphEdge) : List GraphEdge :=
  (dedupeEdgesAux edges []).insertionSort EdgeLE

/-- `finalizeGraph` from `core/finalize.ts`. -/
def finalizeGraph (graph : DependencyGraph) : DependencyGraph :=
  let normalizedNodes : Record GraphNode :=
    graph.nodes.map fun p => (p.1, normalizeNode p.2)
  let nodes := sortKeys normalizedNodes
  let edgesOut : Record (List GraphEdge) :=
    (nodes.map Prod.fst).map fun id =>
      (id, sortAndDedupeEdges ((rlookup graph.edges id).getD []))
  { nodes := nodes, edges := sortKeys edgesOut }

/-! ### `providers/ts/tunnel.ts` and the commander-rule gate in `analyze.ts` -/

/-- `toPosixPath` from `core/paths.ts` (character map on the data list). -/
def toPosixPath (p : String) : String :=
  String.mk (p.data.map fun c => if c = '\\' then '/' else c)

/-- JS `String.prototype.includes`. -/
def stringIncludes (s sub : String) : Bool := decide (sub.data <:+: s.data)

/-- `isNodeModulesPath` from `providers/ts/analyze.ts`. -/
def isNodeModulesPath (absPath : String) : Bool :=
  stringIncludes (toPosixPath absPath) "/node_modules/"

/-- `filterCommanderRule` from `providers/ts/tunnel.ts`. The file-system probe
`findNearestPackageRoot` is modelled by the oracle `pkgRoot`. -/
def filterCommanderRule (pkgRoot : String → Option String) (barrelAbsPath : String)
    (declarationAbsPaths : List String) : List String :=
  match pkgRoot barrelAbsPath with
  | none => declarationAbsPaths
  | some barrelRoot =>
    declarationAbsPaths.filter fun p =>
      match pkgRoot p with
      | none => false
      | some declRoot => declRoot == barrelRoot

/-- The commander-rule gate from `analyzeTypeScript` (analyze.ts): the filter
is applied exactly when the resolved barrel is external. -/
def tunnelFilteredDecls (pkgRoot : String → Option String) (isExternalLibraryImport : Bool)
    (barrelAbsPath : String) (decls : List String) : List String :=
  if isExternalLibraryImport || isNodeModulesPath barrelAbsPath then
    filterCommanderRule pkgRoot barrelAbsPath decls
  else decls

/-- Concrete package-root oracle used to exhibit commander-rule behaviour:
the barrel has a package root, the lone declaration file has none. -/
def pkgRootCex : String → Option String := fun p =>
  if p = "/r/node_modules/pkg/index.d.ts" then some "/r/node_modules/pkg" else none

/-! ### `selection/summarizeDependencySelection.ts` -/

/-- Untyped JavaScript value, as far as the selection entry parser probes it. -/
inductive JsVal where
  | und
  | nul
  | bool (b : Bool)
  | num (x : JsNum)
  | str (s : String)
  | arr (elems : List JsVal)

/-- `HashSizeEnforcement` from `types.ts`. -/
inductive HashSizeEnforcement where
  | warn
  | error
  | ignore
  deriving DecidableEq, Repr

/-- `uniq` (`Array.from(new Set(items))`): first occurrences, in order. -/
def uniqAux {α : Type} [DecidableEq α] : List α → List α → List α
  | [], _ => []
  | x :: rest, seen =>
    if x ∈ seen then uniqAux rest seen else x :: uniqAux rest (x :: seen)

/-- `uniq` from `summarizeDependencySelection.ts`. -/
def uniqList {α : Type} [DecidableEq α] (items : List α) : List α := uniqAux items []

/-- `clampInt(n, min)` from `summarizeDependencySelection.ts`:
`Math.max(min, Math.floor(n))` for finite numbers, `min` otherwise. -/
def clampInt (n : JsVal) (minv : ℤ) : ℤ :=
  match n with
  | .num (.fin q) => Max.max minv ⌊q⌋
  | _ => minv

/-- Parse one of the valid edge-kind names (`VALID_EDGE_KIND_SET.has`). -/
def parseEdgeKind (s : String) : Option GraphEdgeKind :=
  if s = "runtime" then some .runtime
  else if s = "type" then some .type
  else if s = "dynamic" then some .dynamic
  else none

/-- `DEFAULT_EDGE_KINDS`. -/
def DEFAULT_EDGE_KINDS : List GraphEdgeKind := [.runtime, .type, .dynamic]

/-- `normalizeEdgeKinds` from `summarizeDependencySelection.ts`. A missing
third element falls back; a non-array (including a numeric bitmask) warns and
yields no kinds; arrays are filtered to valid names and de-duplicated, with
warnings for invalid names and for an empty outcome. -/
def normalizeEdgeKinds (raw : JsVal) (fallback : List GraphEdgeKind)
    (warnings : List String) (entryLabel : String) : List GraphEdgeKind × List String :=
  match raw with
  | .und => (fallback, warnings)
  | .arr elems =>
    let filtered := elems.filterMap fun k =>
      match k with
      | .str s => parseEdgeKind s
      | _ => none
    let out := uniqList filtered
    let invalid := uniqList (elems.filterMap fun k =>
      match k with
      | .str s => if parseEdgeKind s = none then some s else none
      | _ => none)
    let w1 := invalid.foldl (fun w k =>
      setAdd w ("Invalid edgeKind for " ++ entryLabel ++ ": " ++ k ++ "; ignoring.")) warnings
    let w2 :=
      if 0 < elems.length ∧ out.length = 0 then
        setAdd w1 ("No valid edgeKinds for " ++ entryLabel ++ "; no edges will be traversed.")
      else w1
    (out, w2)
  | _ =>
    ([], setAdd warnings ("Invalid edgeKinds for " ++ entryLabel ++ ": expected array; using none."))

/-- JS indexing `entry[i]` on a (possibly non-array) value. -/
def jsIndex (v : JsVal) (i : ℕ) : JsVal :=
  match v with
  | .arr elems => elems.getD i .und
  | _ => .und

/-- `entry[1] !== depth` (negated): the raw value is exactly the number
`depth`. -/
def eqNumFin (v : JsVal) (d : ℤ) : Bool :=
  match v with
  | .num (.fin q) => q == (d : ℚ)
  | _ => false

/-- The inner guard of the depth warning: the raw depth is a finite,
non-negative integer number. -/
def isSafeDepth (v : JsVal) : Bool :=
  match v with
  | .num (.fin q) => decide (0 ≤ q) && decide ((⌊q⌋ : ℚ) = q)
  | _ => false

/-- Result of `normalizeEntry`. -/
structure NormalizedEntry where
  nodeId : String
  depth : ℤ
  edgeKinds : List GraphEdgeKind

/-- `normalizeEntry` from `summarizeDependencySelection.ts`. -/
def normalizeEntry (entry : JsVal) (defaultEdgeKinds : List GraphEdgeKind)
    (warnings : List String) (index : ℕ) : NormalizedEntry × List String :=
  let label := "entry[" ++ natStr index ++ "]"
  match entry with
  | .str s => ({ nodeId := s, depth := 0, edgeKinds := defaultEdgeKinds }, warnings)
  | _ =>
    let nodeId := jsIndex entry 0
    let depth : ℤ := clampInt (jsIndex entry 1) 0
    let ek := normalizeEdgeKinds (jsIndex entry 2) defaultEdgeKinds warnings label
    match nodeId with
    | .str sid =>
      if trimString sid = "" then
        ({ nodeId := "", depth := 0, edgeKinds := [] },
          setAdd ek.2 ("Invalid nodeId for " ++ label ++ ": expected non-empty string."))
      else
        let w2 :=
          if eqNumFin (jsIndex entry 1) depth then ek.2
          else if isSafeDepth (jsIndex entry 1) then ek.2
          else setAdd ek.2 ("Invalid depth for " ++ label ++
            ": expected integer >= 0; using " ++ natStr depth.toNat ++ ".")
        ({ nodeId := sid, depth := depth, edgeKinds := ek.1 }, w2)
    | _ =>
      ({ nodeId := "", depth := 0, edgeKinds := [] },
        setAdd ek.2 ("Invalid nodeId for " ++ label ++ ": expected non-empty string."))

/-- Work item of `expandClosure`. -/
structure QItem where
  id : String
  remaining : ℤ
  edgeKinds : List GraphEdgeKind

/-- `push` inside `expandClosure`: enqueue only when the remaining depth
strictly exceeds the stored best for this node. -/
def pushQ (best : Record ℤ) (queue : List QItem) (q : QItem) : Record ℤ × List QItem :=
  let prev := (rlookup best q.id).getD (-1)
  if q.remaining ≤ prev then (best, queue)
  else (rset best q.id q.remaining, queue ++ [q])

/-- State of the seeding pass of `expandClosure`. -/
structure SeedState where
  selected : List String
  best : Record ℤ
  queue : List QItem
  warnings : List String

/-- The `entries.forEach` seeding pass of `expandClosure`. -/
def expandSeed (defaults : List GraphEdgeKind) :
    List JsVal → ℕ → SeedState → SeedState
  | [], _, st => st
  | entry :: rest, i, st =>
    let nw := normalizeEntry entry defaults st.warnings i
    if nw.1.nodeId = "" then
      expandSeed defaults rest (i + 1) { st with warnings := nw.2 }
    else
      let bq := pushQ st.best st.queue ⟨nw.1.nodeId, nw.1.depth, nw.1.edgeKinds⟩
      expandSeed defaults rest (i + 1)
        { selected := setAdd st.selected nw.1.nodeId,
          best := bq.1, queue := bq.2, warnings := nw.2 }

/-- One dequeue step's edge scan (`for (const e of outs)`). -/
def scanOuts (cur : QItem) (outs : List GraphEdge)
    (acc : List String × Record ℤ × List QItem) : List String × Record ℤ × List QItem :=
  outs.foldl (fun acc e =>
    if e.kind ∈ cur.edgeKinds then
      let sel := setAdd acc.1 e.target
      let bq := pushQ acc.2.1 acc.2.2 ⟨e.target, cur.remaining - 1, cur.edgeKinds⟩
      (sel, bq.1, bq.2)
    else acc) acc

/-- The work-list loop of `expandClosure`. The fuel passed by `expandClosure`
bounds the number of dequeues: every enqueue strictly raises
`bestRemainingDepth` for its node, remaining depths live in
`[0, max initial depth]`, and node ids come from the seeds or edge targets,
so the loop always drains its queue within the supplied fuel. -/
def expandLoop (graph : DependencyGraph) :
    ℕ → List QItem → Record ℤ → List String → List String
  | 0, _, _, selected => selected
  | _ + 1, [], _, selected => selected
  | fuel + 1, cur :: queue, best, selected =>
    if cur.remaining ≤ 0 then expandLoop graph fuel queue best selected
    else if cur.edgeKinds.length = 0 then expandLoop graph fuel queue best selected
    else
      let outs := (rlookup graph.edges cur.id).getD []
      let sbq := scanOuts cur outs (selected, best, queue)
      expandLoop graph fuel sbq.2.2 sbq.2.1 sbq.1

/-- Total number of edges recorded in the graph. -/
def totalEdgeCount (graph : DependencyGraph) : ℕ :=
  (graph.edges.map fun p => p.2.length).foldl (· + ·) 0

/-- The largest depth requested by any entry. -/
def maxEntryDepth (entries : List JsVal) : ℤ :=
  entries.foldl (fun acc e => Max.max acc (clampInt (jsIndex e 1) 0)) 0

/-- `expandClosure` from `summarizeDependencySelection.ts`: seed from the
entries, then breadth-first expand outgoing edges within the per-item
remaining depth. Returns the selected set and the accumulated warnings. -/
def expandClosure (graph : DependencyGraph) (entries : List JsVal)
    (defaults : List GraphEdgeKind) (warnings : List String) :
    List String × List String :=
  let st := expandSeed defaults entries 0 ⟨[], [], [], warnings⟩
  let fuel :=
    (entries.length + totalEdgeCount graph + 1) * ((maxEntryDepth entries).toNat + 2) + 1
  (expandLoop graph fuel st.queue st.best st.selected, st.warnings)

/-- Serialized `GraphNodeKind` (for warning messages). -/
def nodeKindStr : GraphNodeKind → String
  | .source => "source"
  | .external => "external"
  | .builtin => "builtin"
  | .missing => "missing"

/-- `isFileNodeWithHash` from `summarizeDependencySelection.ts`. -/
def isFileNodeWithHash (n : GraphNode) : Bool :=
  (n.kind == .source || n.kind == .external) &&
    (match n.metadata with
      | some m => m.hash.isSome
      | none => false)

/-- `typeof n.metadata?.size === 'number'`. -/
def sizeIsNumber (n : GraphNode) : Bool :=
  match n.metadata with
  | some m => m.size.isSome
  | none => false

/-- `getBytesForNode` from `summarizeDependencySelection.ts`. -/
def getBytesForNode (n : Option GraphNode) : ℚ :=
  match n with
  | some nd =>
    match nd.metadata with
    | some m =>
      match m.size with
      | some (.fin q) => q
      | _ => 0
    | none => 0
  | none => 0

/-- Accumulator of the size-aggregation loop. -/
structure AggState where
  missingSizeHashed : List String
  missingSizeFileNode : List String
  totalBytes : ℚ
  sized : List (String × ℚ)

/-- One iteration of the size-aggregation loop. -/
def aggStep (graph : DependencyGraph) (acc : AggState) (id : String) : AggState :=
  let n := rlookup graph.nodes id
  let bytes := getBytesForNode n
  let acc1 := { acc with
    totalBytes := acc.totalBytes + bytes, sized := acc.sized ++ [(id, bytes)] }
  match n with
  | none => acc1
  | some nd =>
    let isFile := nd.kind == .source || nd.kind == .external
    let sizeMissing := !sizeIsNumber nd
    let acc2 :=
      if isFile && sizeMissing then
        { acc1 with missingSizeFileNode := acc1.missingSizeFileNode ++ [id] }
      else acc1
    if isFileNodeWithHash nd && sizeMissing then
      { acc2 with missingSizeHashed := acc2.missingSizeHashed ++ [id] }
    else acc2

/-- The size-aggregation loop of `summarizeDependencySelection`. -/
def aggregate (graph : DependencyGraph) (ids : List String) : AggState :=
  ids.foldl (aggStep graph) ⟨[], [], 0, []⟩

/-- `warnings.add("metadata.size missing for hashed node: <id>")` loop. -/
def warnHashedMissing (w : List String) (ids : List String) : List String :=
  ids.foldl (fun w id => setAdd w ("metadata.size missing for hashed node: " ++ id)) w

/-- `warnings.add("metadata.size missing for file node: <id>")` loop. -/
def warnFileMissing (w : List String) (ids : List String) : List String :=
  ids.foldl (fun w id => setAdd w ("metadata.size missing for file node: " ++ id)) w

/-- The `largest` comparator: bytes descending, then node id ascending. -/
def LargestLE (a b : String × ℚ) : Prop :=
  b.2 < a.2 ∨ (b.2 = a.2 ∧ strLE a.1 b.1)

instance : DecidableRel LargestLE := fun a b =>
  show Decidable (b.2 < a.2 ∨ (b.2 = a.2 ∧ strLE a.1 b.1)) from inferInstance

/-- `", "`-join (`Array.prototype.join`). -/
def joinComma : List String → String
  | [] => ""
  | [x] => x
  | x :: rest => x ++ ", " ++ joinComma rest

/-- Options of `summarizeDependencySelection`. -/
structure SummarizeOptions where
  defaultEdgeKinds : Option (List GraphEdgeKind)
  dropNodeKinds : Option (List GraphNodeKind)
  maxTop : Option JsNum
  hashSizeEnforcement : Option HashSizeEnforcement

/-- `SummarizeOptions` with every field defaulted. -/
def optsDefault : SummarizeOptions := ⟨none, none, none, none⟩

/-- Result of `summarizeDependencySelection`. -/
structure SelectionSummary where
  selectedNodeIds : List String
  selectedCount : ℕ
  totalBytes : ℚ
  largest : List (String × ℚ)
  warnings : List String

/-- The size-aggregation-and-enforcement tail of `summarizeDependencySelection`
(everything after `selectedNodeIds` and the unknown-node warnings are fixed).
The `error` enforcement policy's `throw` becomes `Except.error`. -/
def summarizeTail (graph : DependencyGraph) (selectedNodeIds : List String)
    (maxTop : ℤ) (w4 : List String) (enforcement : HashSizeEnforcement) :
    Except String SelectionSummary :=
  let agg := aggregate graph selectedNodeIds
  let hashedMissing := sortStrings (uniqList agg.missingSizeHashed)
  let fileMissingNonHashed :=
    sortStrings ((uniqList agg.missingSizeFileNode).filter fun id => id ∉ hashedMissing)
  let finish : List String → SelectionSummary := fun w5 =>
    { selectedNodeIds := selectedNodeIds,
      selectedCount := selectedNodeIds.length,
      totalBytes := agg.totalBytes,
      largest := (agg.sized.insertionSort LargestLE).take maxTop.toNat,
      warnings := sortStrings (warnFileMissing w5 fileMissingNonHashed) }
  match enforcement with
  | .error =>
    if 0 < hashedMissing.length then
      Except.error ("metadata.size missing for hashed nodes (" ++
        natStr hashedMissing.length ++ "): " ++ joinComma (hashedMissing.take 10) ++
        (if 10 < hashedMissing.length then " ..." else ""))
    else Except.ok (finish w4)
  | .warn => Except.ok (finish (warnHashedMissing w4 hashedMissing))
  | .ignore => Except.ok (finish w4)

/-- `summarizeDependencySelection` from `summarizeDependencySelection.ts`. -/
def summarizeDependencySelection (graph : DependencyGraph)
    (includeEntries excludeEntries : List JsVal) (options : SummarizeOptions) :
    Except String SelectionSummary :=
  let defaultEdgeKinds := uniqList (options.defaultEdgeKinds.getD DEFAULT_EDGE_KINDS)
  let dropNodeKinds := uniqList (options.dropNodeKinds.getD [.builtin, .missing])
  let maxTop : ℤ :=
    match options.maxTop with
    | some x => clampInt (.num x) 0
    | none => 10
  let enforcement := options.hashSizeEnforcement.getD .warn
  let inc := expandClosure graph includeEntries defaultEdgeKinds []
  let exc := expandClosure graph excludeEntries defaultEdgeKinds inc.2
  let includeSet1 := inc.1.filter fun id => id ∉ exc.1
  let dropped := includeSet1.filterMap fun id =>
    match rlookup graph.nodes id with
    | none => none
    | some n =>
      if (n.kind == .builtin && GraphNodeKind.builtin ∈ dropNodeKinds) ||
          (n.kind == .missing && GraphNodeKind.missing ∈ dropNodeKinds) then
        some (id, n.kind)
      else none
  let includeSet2 := includeSet1.filter fun id =>
    match rlookup graph.nodes id with
    | none => true
    | some n =>
      !((n.kind == .builtin && GraphNodeKind.builtin ∈ dropNodeKinds) ||
        (n.kind == .missing && GraphNodeKind.missing ∈ dropNodeKinds))
  let w3 := (dropped.insertionSort fun a b => strLE a.1 b.1).foldl (fun w d =>
    setAdd w ("Dropped " ++ nodeKindStr d.2 ++ " node from selection: " ++ d.1)) exc.2
  let selectedNodeIds := sortStrings includeSet2
  let w4 := selectedNodeIds.foldl (fun w id =>
    if (rlookup graph.nodes id).isSome then w
    else setAdd w ("Selected nodeId not present in graph.nodes: " ++ id)) w3
  summarizeTail graph selectedNodeIds maxTop w4 enforcement

/-- Fixture for selection claims: `a.ts` has a runtime edge to `b.ts` and a
type edge to `t.ts`. -/
def selFixture : DependencyGraph :=
  { nodes := [("a.ts", ⟨"a.ts", .source, .ts, none, none⟩),
              ("b.ts", ⟨"b.ts", .source, .ts, none, none⟩),
              ("t.ts", ⟨"t.ts", .source, .ts, none, none⟩)],
    edges := [("a.ts", [⟨"b.ts", .runtime, .explicit⟩, ⟨"t.ts", .type, .explicit⟩])] }

/-- Fixture for the size-warning claim: a source node with no metadata at all
(no size, not hashed). -/
def missFixture : DependencyGraph :=
  { nodes := [("m.ts", ⟨"m.ts", .source, .ts, none, none⟩)], edges := [] }

/-! ### `core/incremental.ts` -/

/-- `IncrementalPlan` from `core/incremental.ts` (JS `Set`s become ordered
duplicate-free lists). -/
structure IncrementalPlan where
  dirtySourceIds : List String
  reusedEdgesBySource : Record (List GraphEdge)
  carriedNodes : Record GraphNode
  changedNodeIds : List String

/-- `isHashComparable` from `core/incremental.ts`. -/
def isHashComparable (n : GraphNode) : Bool :=
  (n.kind == .source || n.kind == .external) &&
    (match n.metadata with
      | some m => m.hash.isSome
      | none => false)

/-- `n.metadata?.hash`. -/
def nodeHash (n : GraphNode) : Option String := n.metadata.bind fun m => m.hash

/-- `new Set(list)`: de-duplicate keeping first occurrences. -/
def setOfList (l : List String) : List String := l.foldl setAdd []

/-- One `rev` update of `buildReverseDeps`: `rev.get(target) ?? new Set()`,
`set.add(src)`, `rev.set(target, set)`. -/
def revAdd (rev : Record (List String)) (target src : String) : Record (List String) :=
  let s := (rlookup rev target).getD []
  rset rev target (if src ∈ s then s else s ++ [src])

/-- `buildReverseDeps` from `core/incremental.ts`. -/
def buildReverseDeps (edges : Record (List GraphEdge)) : Record (List String) :=
  edges.foldl (fun rev p => p.2.foldl (fun rev e => revAdd rev e.target p.1) rev) []

/-- The shared enqueue pattern of `transitiveReverseClosure`: for each
candidate not yet in `out`, add it to `out` and push it on the queue. -/
def enqueueNew : List String → List String → List String → List String × List String
  | [], q, o => (q, o)
  | s :: rest, q, o =>
    if s ∈ o then enqueueNew rest q o
    else enqueueNew rest (q ++ [s]) (o ++ [s])

/-- The `while (queue.length)` loop of `transitiveReverseClosure`. The fuel
passed by `transitiveReverseClosure` bounds the number of dequeues: each
dequeued id was enqueued exactly once (guarded by `out` membership), and every
enqueued id is one of the seeds or a member of some `rev` value, so the loop
always drains its queue within the supplied fuel. -/
def bfsLoop (rev : Record (List String)) : ℕ → List String → List String → List String
  | 0, _, out => out
  | _ + 1, [], out => out
  | fuel + 1, id :: queue, out =>
    let deps := (rlookup rev id).getD []
    let qo := enqueueNew deps queue out
    bfsLoop rev fuel qo.1 qo.2

/-- The seeds plus everything mentioned in `rev` — a superset of every id the
breadth-first search can ever visit. -/
def bfsUniv (start : List String) (rev : Record (List String)) : List String :=
  start ++ (rev.map Prod.snd).flatten

/-- `transitiveReverseClosure` from `core/incremental.ts`. -/
def transitiveReverseClosure (start : List String) (rev : Record (List String)) :
    List String :=
  let qo := enqueueNew start [] []
  bfsLoop rev (start.length + (bfsUniv start rev).length + 1) qo.1 qo.2

/-- `planIncremental` from `core/incremental.ts`. The file-system re-hash of
step (3) — `nodeIdToAbsPath` followed by `tryHashFileSha256` — is modelled by
the oracle `rehash`, which returns `none` when either step fails. -/
def planIncremental (rehash : String → Option String)
    (analyzableSourceIds : List String) (currentNodes : Record GraphNode)
    (previousGraph : Option DependencyGraph) : IncrementalPlan :=
  match previousGraph with
  | none =>
    { dirtySourceIds := setOfList analyzableSourceIds,
      reusedEdgesBySource := [], carriedNodes := [],
      changedNodeIds := setOfList analyzableSourceIds }
  | some prev =>
    let rev := buildReverseDeps prev.edges
    let changed1 := currentNodes.foldl (fun ch p =>
      if isHashComparable p.2 then
        if (rlookup prev.nodes p.1).bind nodeHash ≠ nodeHash p.2 then setAdd ch p.1 else ch
      else ch) []
    let changed2 := prev.nodes.foldl (fun ch p =>
      if p.2.kind == .source then
        if (rlookup currentNodes p.1).isSome then ch else setAdd ch p.1
      else ch) changed1
    let changed := prev.nodes.foldl (fun ch p =>
      if isHashComparable p.2 then
        match rehash p.1 with
        | none => ch
        | some now => if some now ≠ nodeHash p.2 then setAdd ch p.1 else ch
      else ch) changed2
    let closure := transitiveReverseClosure changed rev
    let dirtySourceIds := closure.filter fun id => id ∈ analyzableSourceIds
    let reusedEdgesBySource := analyzableSourceIds.foldl (fun r id =>
      if id ∈ dirtySourceIds then r
      else
        match rlookup prev.edges id with
        | some es => rset r id es
        | none => r) []
    let referenced := reusedEdgesBySource.foldl (fun s p =>
      p.2.foldl (fun s e => setAdd s e.target) (setAdd s p.1)) []
    let carriedNodes := referenced.foldl (fun c id =>
      if (rlookup currentNodes id).isSome then c
      else
        match rlookup prev.nodes id with
        | some n => rset c id n
        | none => c) []
    { dirtySourceIds := dirtySourceIds,
      reusedEdgesBySource := reusedEdgesBySource,
      carriedNodes := carriedNodes,
      changedNodeIds := changed }

/-- Reachability along reverse-dependency edges: `RevReach rev s x` holds when
`x` is reachable from `s` by following members of `rev` lists. -/
inductive RevReach (rev : Record (List String)) : String → String → Prop where
  | refl (x : String) : RevReach rev x x
  | step {x y z : String} :
      RevReach rev x y → z ∈ (rlookup rev y).getD [] → RevReach rev x z

/-- Previous-graph fixture for incremental planning: `A → B → C` runtime
edges, with hashes recorded for all three nodes. -/
def incPrevFixture : DependencyGraph :=
  { nodes := [("A", ⟨"A", .source, .ts, none, some ⟨some "1", false, none⟩⟩),
              ("B", ⟨"B", .source, .ts, none, some ⟨some "2", false, none⟩⟩),
              ("C", ⟨"C", .source, .ts, none, some ⟨some "3", false, none⟩⟩)],
    edges := [("A", [⟨"B", .runtime, .explicit⟩]),
              ("B", [⟨"C", .runtime, .explicit⟩]),
              ("C", [])] }

/-- Current universe for the incremental fixture: `C`'s content hash changed
on disk, `A` and `B` are unchanged. -/
def incCurFixture : Record GraphNode :=
  [("A", ⟨"A", .source, .ts, none, some ⟨some "1", false, none⟩⟩),
   ("B", ⟨"B", .source, .ts, none, some ⟨some "2", false, none⟩⟩),
   ("C", ⟨"C", .source, .ts, none, some ⟨some "3x", false, none⟩⟩)]

/-- The summary produced for `missFixture` with include `["m.ts"]` under any
non-throwing policy. -/
def missSummary : SelectionSummary :=
  { selectedNodeIds := ["m.ts"], selectedCount := 1, totalBytes := 0,
    largest := [("m.ts", 0)],
    warnings := ["metadata.size missing for file node: m.ts"] }

/-- A small fixture graph: node keys out of order, duplicate and unsorted
edges under `a`, and an edge list under the unknown id `zzz`. -/
def graphFixture : DependencyGraph :=
  { nodes := [("b", ⟨"b", .source, .ts, none, none⟩), ("a", ⟨"a", .source, .ts, none, none⟩)],
    edges := [("a", [⟨"b", .type, .explicit⟩, ⟨"b", .runtime, .explicit⟩,
                     ⟨"b", .runtime, .explicit⟩]),
              ("zzz", [⟨"a", .runtime, .explicit⟩])] }

/-- The finalized edge list of `a` in `graphFixture`. -/
def fixtureEdgesA : List GraphEdge :=
  [⟨"b", .runtime, .explicit⟩, ⟨"b", .type, .explicit⟩]

/-! ### `providers/ts/reexportTraversal.ts` and its AST collectors

The traversal inspects only a fixed family of top-level statement shapes; the
embedding models exactly those shapes. An export/import specifier element
carries `name` and an optional `propertyName` (as in `{ A as B }`,
`propertyName = some "A"`, `name = "B"`). -/

/-- An element of a named import/export clause. -/
structure ExportElem where
  name : String
  propertyName : Option String
deriving DecidableEq, Repr

/-- `el.propertyName ? moduleExportNameToText(ts, el.propertyName) : el.name.text`. -/
def elemSourceName (el : ExportElem) : String := el.propertyName.getD el.name

/-- `namedBindings` of an import clause: `* as Ns` or `{ ... }`. -/
inductive NamedBindings where
  | namespaceImport (name : String)
  | namedImports (elems : List ExportElem)
deriving DecidableEq, Repr

/-- `exportClause` of an export declaration: absent (`export * from`),
`* as Ns`, or named `{ ... }`. -/
inductive ExportClause where
  | star
  | namespaceExport (name : String)
  | named (elems : List ExportElem)
deriving DecidableEq, Repr

/-- The top-level statement shapes inspected by the re-export traversal:
`decl` covers function/class/interface/type-alias/enum declarations with an
identifier name (`isDefault` marks the `default` modifier on an exported
function/class); `moduleDecl` a namespace/module declaration; `varStmt` a
variable statement listing its simple identifier declarations;
`exportAssignment` an `export =`/`export default <expr>` assignment;
`importDecl` an import declaration (default name and/or named bindings);
`exportFrom` an export declaration with a module specifier; `exportLocal`
one without. -/
inductive Stmt where
  | decl (name : String) (isExported : Bool) (isDefault : Bool)
  | moduleDecl (name : String)
  | varStmt (names : List String) (isExported : Bool)
  | exportAssignment (isExportEquals : Bool)
  | importDecl (specifier : String) (defaultName : Option String)
      (namedBindings : Option NamedBindings)
  | exportFrom (specifier : String) (clause : ExportClause)
  | exportLocal (clause : ExportClause)
deriving DecidableEq, Repr

/-- A parsed source file: `fileName` plus top-level `statements`. -/
structure SourceFile where
  fileName : String
  statements : List Stmt
deriving DecidableEq, Repr

/-- `collectLocalTopLevelDeclarationNames` from `reexportTraversal/locals.ts`. -/
def collectLocalTopLevelDeclarationNames (sf : SourceFile) : List String :=
  sf.statements.foldl (fun names s =>
    match s with
    | .decl n _ _ => setAdd names n
    | .moduleDecl n => setAdd names n
    | .varStmt ns _ => ns.foldl setAdd names
    | _ => names) []

/-- `sourceFileDefinesExportName` from `reexportTraversal/defines.ts`. -/
def sourceFileDefinesExportName (sf : SourceFile) (exportName : String)
    (localNames : List String) : Bool :=
  if exportName = "default" then
    sf.statements.any fun s =>
      match s with
      | .exportAssignment isEq => !isEq
      | .decl _ isExp isDef => isExp && isDef
      | _ => false
  else
    sf.statements.any fun s =>
      match s with
      | .decl n isExp _ => isExp && n == exportName
      | .varStmt ns isExp => isExp && ns.any (· == exportName)
      | .exportLocal (.named elems) =>
        elems.any fun el =>
          el.name == exportName && localNames.contains (elemSourceName el)
      | _ => false

/-- `ImportedBinding` from `reexportTraversal/importBindings.ts`. -/
inductive ImportedBinding where
  | named (specifier importName : String)
  | defaultImport (specifier : String)
  | namespaceBinding (specifier : String)
deriving DecidableEq, Repr

/-- `collectImportBindings` from `reexportTraversal/importBindings.ts`
(`Map.set` becomes `rset`). -/
def collectImportBindings (sf : SourceFile) : Record ImportedBinding :=
  sf.statements.foldl (fun out s =>
    match s with
    | .importDecl spec dflt nb =>
      let out :=
        match dflt with
        | some n => rset out n (.defaultImport spec)
        | none => out
      match nb with
      | none => out
      | some (.namespaceImport n) => rset out n (.namespaceBinding spec)
      | some (.namedImports elems) =>
        elems.foldl (fun out el =>
          rset out el.name (.named spec (elemSourceName el))) out
    | _ => out) []

/-- `ForwardTarget` from `reexportTraversal/forwarding.ts`. -/
inductive ForwardTarget where
  | symbol (specifier importName : String)
  | module (specifier : String)
deriving DecidableEq, Repr

/-- `collectForwardingTargetsForName` from `reexportTraversal/forwarding.ts`. -/
def collectForwardingTargetsForName (sf : SourceFile) (exportName : String)
    (localNames : List String) (imports : Record ImportedBinding) :
    List ForwardTarget :=
  sf.statements.foldl (fun out s =>
    match s with
    | .exportFrom spec clause =>
      match clause with
      | .star => out ++ [.symbol spec exportName]
      | .namespaceExport n =>
        if n == exportName then out ++ [.module spec] else out
      | .named elems =>
        elems.foldl (fun out el =>
          if el.name == exportName then out ++ [.symbol spec (elemSourceName el)]
          else out) out
    | .exportLocal (.named elems) =>
      elems.foldl (fun out el =>
        if el.name == exportName then
          if localNames.contains (elemSourceName el) then out
          else
            match rlookup imports (elemSourceName el) with
            | none => out
            | some (.namespaceBinding spec) => out ++ [.module spec]
            | some (.defaultImport spec) => out ++ [.symbol spec "default"]
            | some (.named spec importName) => out ++ [.symbol spec importName]
        else out) out
    | _ => out) []

/-- `DefiningExport` from `reexportTraversal.ts`. -/
inductive DefiningExport where
  | symbol (absPath exportName : String)
  | module (absPath : String)
deriving DecidableEq, Repr

/-- The de-duplication key of `uniqByKey`'s call site:
`module\0absPath` or `symbol\0absPath\0exportName`. -/
def definingExportKey : DefiningExport → String
  | .module a => "module" ++ "\x00" ++ a
  | .symbol a n => "symbol" ++ "\x00" ++ a ++ "\x00" ++ n

/-- `uniqByKey` from `reexportTraversal.ts`, with the `seen` set explicit. -/
def uniqByKeyAux {T : Type} (key : T → String) : List T → List String → List T
  | [], _ => []
  | it :: rest, seen =>
    if key it ∈ seen then uniqByKeyAux key rest seen
    else it :: uniqByKeyAux key rest (seen ++ [key it])

/-- `uniqByKey` from `reexportTraversal.ts`. -/
def uniqByKey {T : Type} (items : List T) (key : T → String) : List T :=
  uniqByKeyAux key items []

/-- The memo key: `fileName\0exportName`. -/
def visitKey (file exportName : String) : String := file ++ "\x00" ++ exportName

/-- The `for (const t of targets)` loop of `visit`, accumulating `res` and
threading the memo cache; `recur` is the recursive `visit` call for symbol
targets (at one less fuel, supplied by `visit` below). Unresolvable
specifiers and unknown modules are skipped, exactly as the two `continue`
guards do. -/
def visitFold
    (recur : SourceFile → String → Record (List DefiningExport) →
      Option (List DefiningExport × Record (List DefiningExport)))
    (resolve : String → String → Option String) (modules : Record SourceFile)
    (fromFile : String) :
    List ForwardTarget → List DefiningExport → Record (List DefiningExport) →
      Option (List DefiningExport × Record (List DefiningExport))
  | [], res, memo => some (res, memo)
  | t :: rest, res, memo =>
    match t with
    | .module spec =>
      match resolve fromFile spec with
      | none => visitFold recur resolve modules fromFile rest res memo
      | some abs =>
        match rlookup modules abs with
        | none => visitFold recur resolve modules fromFile rest res memo
        | some nextSf =>
          visitFold recur resolve modules fromFile rest
            (res ++ [.module nextSf.fileName]) memo
    | .symbol spec importName =>
      match resolve fromFile spec with
      | none => visitFold recur resolve modules fromFile rest res memo
      | some abs =>
        match rlookup modules abs with
        | none => visitFold recur resolve modules fromFile rest res memo
        | some nextSf =>
          match recur nextSf importName memo with
          | none => none
          | some (r, memo') =>
            visitFold recur resolve modules fromFile rest (res ++ r) memo'

/-- The `visit` closure of `resolveDefiningExportsForName`, with the mutable
pieces explicit: the cycle `stack` is passed down (the JS `Set` is restored
before every return, so it behaves as a per-branch value), and the memo cache
is threaded through in evaluation order. `resolveAbsPath` and the program's
module table are oracle parameters (`getSourceFile` is lookup in `modules`).
The JS recursion carries no fuel; `fuel` bounds the recursion depth and
`none` signals exhaustion, which `visit_isSome_of_fuel` below proves cannot
happen from the fuel chosen by `resolveDefiningExportsForName`. -/
def visit (resolve : String → String → Option String) (modules : Record SourceFile) :
    ℕ → SourceFile → String → List String → Record (List DefiningExport) →
      Option (List DefiningExport × Record (List DefiningExport))
  | 0, _, _, _, _ => none
  | fuel + 1, sf, exportName, stack, memo =>
    match rlookup memo (visitKey sf.fileName exportName) with
    | some v => some (v, memo)
    | none =>
      if visitKey sf.fileName exportName ∈ stack then some ([], memo)
      else
        match visitFold
            (fun nextSf importName m =>
              visit resolve modules fuel nextSf importName
                (stack ++ [visitKey sf.fileName exportName]) m)
            resolve modules sf.fileName
            (collectForwardingTargetsForName sf exportName
              (collectLocalTopLevelDeclarationNames sf) (collectImportBindings sf))
            (if sourceFileDefinesExportName sf exportName
                (collectLocalTopLevelDeclarationNames sf) then
              [.symbol sf.fileName exportName]
            else []) memo with
        | none => none
        | some (res, memo') =>
          some (uniqByKey res definingExportKey,
            rset memo' (visitKey sf.fileName exportName)
              (uniqByKey res definingExportKey))

/-- Every string a statement can contribute as a file-local name, a clause
name, a specifier, or an import name; used to bound the keys `visit` can
ever construct. -/
def stmtStrings : Stmt → List String
  | .decl n _ _ => [n]
  | .moduleDecl n => [n]
  | .varStmt ns _ => ns
  | .exportAssignment _ => []
  | .importDecl spec dflt nb =>
    spec :: dflt.toList ++
      (match nb with
        | none => []
        | some (.namespaceImport n) => [n]
        | some (.namedImports elems) =>
          elems.flatMap fun el => el.name :: el.propertyName.toList)
  | .exportFrom spec clause =>
    spec ::
      (match clause with
        | .star => []
        | .namespaceExport n => [n]
        | .named elems => elems.flatMap fun el => el.name :: el.propertyName.toList)
  | .exportLocal clause =>
    match clause with
    | .star => []
    | .namespaceExport n => [n]
    | .named elems => elems.flatMap fun el => el.name :: el.propertyName.toList

/-- All strings of a source file's statements. -/
def sfStrings (sf : SourceFile) : List String := sf.statements.flatMap stmtStrings

/-- Every export name a traversal from `entrySf` over `modules` can request. -/
def allNames (entrySf : SourceFile) (modules : Record SourceFile)
    (entryName : String) : List String :=
  entryName :: "default" :: sfStrings entrySf ++
    modules.flatMap fun p => sfStrings p.2

/-- Every file name a traversal from `entrySf` over `modules` can visit. -/
def allFiles (entrySf : SourceFile) (modules : Record SourceFile) : List String :=
  entrySf.fileName :: modules.map fun p => p.2.fileName

/-- Every memo key a traversal from `entrySf` over `modules` can construct. -/
def keyUniv (entrySf : SourceFile) (modules : Record SourceFile)
    (entryName : String) : List String :=
  (allFiles entrySf modules).flatMap fun f =>
    (allNames entrySf modules entryName).map (visitKey f)

/-- `resolveDefiningExportsForName` from `reexportTraversal.ts`, with fuel
sufficient for the visited key universe (no caller-provided cache: the memo
starts empty, as with `createReexportTraversalCache`). -/
def resolveDefiningExportsForName (resolve : String → String → Option String)
    (modules : Record SourceFile) (entrySf : SourceFile) (exportName : String) :
    Option (List DefiningExport) :=
  (visit resolve modules ((keyUniv entrySf modules exportName).length + 1)
    entrySf exportName [] []).map Prod.fst

/-- Cyclic-fixture resolver: `./A` and `./B` resolve to the fixture files. -/
def reexResolveFixture (_fromFile spec : String) : Option String :=
  if spec = "./A" then some "A.ts"
  else if spec = "./B" then some "B.ts"
  else none

/-- Cyclic fixture: `A.ts` re-exports `*` from `./B`; `B.ts` re-exports `*`
from `./A` (a forwarding cycle) and locally defines and exports `X`. -/
def reexEntryFixture : SourceFile :=
  ⟨"A.ts", [.exportFrom "./B" .star]⟩

/-- The `B.ts` file of the cyclic fixture. -/
def reexBFixture : SourceFile :=
  ⟨"B.ts", [.exportFrom "./A" .star, .decl "X" true false]⟩

/-- The module table of the cyclic fixture. -/
def reexModulesFixture : Record SourceFile :=
  [("A.ts", reexEntryFixture), ("B.ts", reexBFixture)]

end StanContext

namespace StanContext

/-- C8: `capErrors` behaves per its specification case split, and its output
length never exceeds a finite non-negative cap. -/
theorem capErrors_spec (errors : List String) :
    (capErrors errors .nan = errors ∧ capErrors errors .posInf = errors ∧
      capErrors errors .negInf = errors) ∧
    capErrors errors (.fin 0) = [] ∧
    (∀ n : ℕ, errors.length ≤ n → capErrors errors (.fin n) = errors) ∧
    (1 < errors.length →
      capErrors errors (.fin 1) =
        ["errors truncated: " ++ natStr errors.length ++ " total"]) ∧
    (∀ n : ℕ, 2 ≤ n → n < errors.length →
      capErrors errors (.fin n) =
        errors.take (n - 1) ++
          ["errors truncated: showing " ++ natStr (n - 1) ++ " of " ++ natStr errors.length]) ∧
    (∀ q : ℚ, 0 ≤ q → ((capErrors errors (.fin q)).length : ℚ) ≤ q) := by
  refine ⟨⟨rfl, rfl, rfl⟩, ?_, ?_, ?_, ?_, ?_⟩
  · simp [capErrors]
  · intro n hn
    rcases Nat.eq_zero_or_pos n with h0 | hpos
    · subst h0
      have h : errors = [] := List.eq_nil_of_length_eq_zero (by omega)
      subst h
      simp [capErrors]
    · have hfl : ⌊(n : ℚ)⌋ = (n : ℤ) := Int.floor_natCast n
      have hmax : Max.max (0 : ℤ) ⌊(n : ℚ)⌋ = (n : ℤ) := by rw [hfl]; omega
      simp only [capErrors, hmax]
      have h1 : ¬((n : ℤ) = 0) := by omega
      have h2 : (errors.length : ℤ) ≤ (n : ℤ) := by exact_mod_cast hn
      simp [h1, h2]
  · intro hlen
    have h1q : Max.max (0 : ℤ) ⌊(1 : ℚ)⌋ = 1 := by norm_num
    simp only [capErrors, h1q]
    have hA : ¬((1 : ℤ) = 0) := by norm_num
    have hB : ¬((errors.length : ℤ) ≤ 1) := by exact_mod_cast not_le.mpr hlen
    simp [hA, hB]
  · intro n h2 hlen
    have hfl : ⌊(n : ℚ)⌋ = (n : ℤ) := Int.floor_natCast n
    have hmax : Max.max (0 : ℤ) ⌊(n : ℚ)⌋ = (n : ℤ) := by rw [hfl]; omega
    simp only [capErrors, hmax]
    have hne : ¬((n : ℤ) = 0) := by omega
    have hgt : ¬((errors.length : ℤ) ≤ (n : ℤ)) := by exact_mod_cast not_le.mpr hlen
    have hne1 : ¬((n : ℤ) = 1) := by omega
    have htn : ((n : ℤ) - 1).toNat = n - 1 := by omega
    simp [hne, hgt, hne1, htn]
  · intro q hq
    obtain ⟨m, hm⟩ : ∃ m, ⌊q⌋ = m := ⟨_, rfl⟩
    have hm0 : (0 : ℤ) ≤ m := hm ▸ Int.floor_nonneg.mpr hq
    have hfq : (m : ℚ) ≤ q := hm ▸ Int.floor_le q
    have hmax : Max.max (0 : ℤ) ⌊q⌋ = m := by rw [hm]; omega
    simp only [capErrors, hmax]
    by_cases h0 : m = 0
    · rw [if_pos h0]; simpa using hq
    rw [if_neg h0]
    by_cases hle : (errors.length : ℤ) ≤ m
    · rw [if_pos hle]
      have h : (errors.length : ℚ) ≤ (m : ℚ) := by exact_mod_cast hle
      linarith
    rw [if_neg hle]
    by_cases h1 : m = 1
    · rw [if_pos h1, List.length_singleton]
      have h : (1 : ℚ) ≤ q := by rw [h1] at hfq; exact_mod_cast hfq
      exact_mod_cast h
    rw [if_neg h1, List.length_append, List.length_take, List.length_singleton]
    have hZ : ((((m - 1).toNat ⊓ errors.length) + 1 : ℕ) : ℤ) ≤ m := by
      push_cast
      omega
    have hQ := le_trans (Int.cast_le.mpr hZ) hfq
    exact_mod_cast hQ

/-- Witness for C8 at a concrete error list and caps. -/
theorem capErrors_spec_witness :
    capErrors ["a", "b", "c"] (.fin 1) = ["errors truncated: " ++ natStr 3 ++ " total"] ∧
    capErrors ["a", "b", "c"] (.fin 2) =
      ["a"] ++ ["errors truncated: showing " ++ natStr 1 ++ " of " ++ natStr 3] := by
  constructor
  · simpa using (capErrors_spec ["a", "b", "c"]).2.2.2.1 (by norm_num)
  · simpa using (capErrors_spec ["a", "b", "c"]).2.2.2.2.1 2 (by norm_num) (by norm_num)

/-! ### Record and `sortKeys` lemmas -/

theorem rlookup_isSome_iff {α : Type} (rec : Record α) (k : String) :
    (rlookup rec k).isSome ↔ k ∈ rec.map Prod.fst := by
  induction rec with
  | nil => simp [rlookup]
  | cons p rest ih =>
    obtain ⟨k', v⟩ := p
    by_cases h : k' = k
    · subst h
      simp [rlookup]
    · simp only [rlookup, if_neg h, List.map_cons, List.mem_cons, ih]
      constructor
      · exact fun hm => Or.inr hm
      · rintro (hm | hm)
        · exact absurd hm.symm h
        · exact hm

theorem rlookup_eq_none_of_not_mem {α : Type} {rec : Record α} {k : String}
    (h : k ∉ rec.map Prod.fst) : rlookup rec k = none := by
  rcases hv : rlookup rec k with _ | v
  · rfl
  · exact absurd ((rlookup_isSome_iff rec k).mp (by simp [hv])) h

theorem rlookup_map_value {α β : Type} (f : α → β) (rec : Record α) (k : String) :
    rlookup (rec.map fun p => (p.1, f p.2)) k = (rlookup rec k).map f := by
  induction rec with
  | nil => simp [rlookup]
  | cons p rest ih =>
    by_cases h : p.1 = k
    · simp [rlookup, h]
    · simp [rlookup, h, ih]

theorem rlookup_keysMap {α : Type} (f : String → α) (ks : List String) (k : String) :
    rlookup (ks.map fun id => (id, f id)) k = if k ∈ ks then some (f k) else none := by
  induction ks with
  | nil => simp [rlookup]
  | cons a rest ih =>
    by_cases h : a = k
    · subst h
      simp [rlookup]
    · simp only [List.map_cons, rlookup, if_neg h, ih, List.mem_cons]
      by_cases hm : k ∈ rest
      · simp [hm]
      · have hka : ¬k = a := fun hh => h hh.symm
        simp [hm, hka]

theorem filterMap_lookup_keys {α : Type} (rec : Record α) (ks : List String)
    (h : ∀ k ∈ ks, (rlookup rec k).isSome) :
    ((ks.filterMap fun k => (rlookup rec k).map fun v => (k, v)).map Prod.fst) = ks := by
  induction ks with
  | nil => simp
  | cons a rest ih =>
    have ha := h a (List.mem_cons_self a rest)
    rcases hv : rlookup rec a with _ | v
    · rw [hv] at ha; simp at ha
    · simp only [List.filterMap_cons, hv, Option.map_some']
      simpa using ih fun k hk => h k (List.mem_cons_of_mem a hk)

theorem filterMap_lookup_rlookup {α : Type} (rec : Record α) (ks : List String) (key : String) :
    rlookup (ks.filterMap fun k => (rlookup rec k).map fun v => (k, v)) key =
      if key ∈ ks then rlookup rec key else none := by
  induction ks with
  | nil => simp [rlookup]
  | cons a rest ih =>
    rcases hv : rlookup rec a with _ | v
    · simp only [List.filterMap_cons, hv, Option.map_none', ih]
      by_cases hm : key ∈ rest
      · simp [hm]
      · by_cases hk : key = a
        · subst hk
          simp [hm, hv]
        · have : ¬(key = a ∨ key ∈ rest) := by
            rintro (rfl | h)
            · exact hk rfl
            · exact hm h
          simp [hm, hk, this]
    · simp only [List.filterMap_cons, hv, Option.map_some']
      by_cases hk : a = key
      · subst hk
        simp [rlookup, hv]
      · simp only [rlookup, if_neg hk, ih, List.mem_cons]
        by_cases hm : key ∈ rest
        · simp [hm]
        · have hka : ¬key = a := fun hh => hk hh.symm
          simp [hm, hka]

theorem mem_sortStrings {l : List String} {k : String} : k ∈ sortStrings l ↔ k ∈ l :=
  List.mem_insertionSort _

theorem sortStrings_sorted (l : List String) :
    (sortStrings l).Sorted strLE :=
  List.sorted_insertionSort _ l

theorem sortStrings_of_sorted {l : List String}
    (h : l.Sorted strLE) : sortStrings l = l :=
  h.insertionSort_eq

theorem sortKeys_keys {α : Type} (rec : Record α) :
    (sortKeys rec).map Prod.fst = sortStrings (rec.map Prod.fst) := by
  refine filterMap_lookup_keys rec _ fun k hk => ?_
  exact (rlookup_isSome_iff rec k).mpr (mem_sortStrings.mp hk)

theorem sortKeys_rlookup {α : Type} (rec : Record α) (k : String) :
    rlookup (sortKeys rec) k = rlookup rec k := by
  rw [sortKeys, filterMap_lookup_rlookup]
  by_cases hm : k ∈ sortStrings (rec.map Prod.fst)
  · simp [hm]
  · rw [if_neg hm]
    exact (rlookup_eq_none_of_not_mem (fun h => hm (mem_sortStrings.mpr h))).symm

theorem sortKeys_sorted_keys {α : Type} (rec : Record α) :
    ((sortKeys rec).map Prod.fst).Sorted strLE := by
  rw [sortKeys_keys]
  exact sortStrings_sorted _

theorem sortKeys_idem {α : Type} (rec : Record α) : sortKeys (sortKeys rec) = sortKeys rec := by
  have hfun : (fun k => (rlookup (sortKeys rec) k).map fun v => (k, v)) =
      (fun k => (rlookup rec k).map fun v => (k, v)) := by
    funext k
    rw [sortKeys_rlookup]
  calc sortKeys (sortKeys rec)
      = (sortStrings ((sortKeys rec).map Prod.fst)).filterMap
          fun k => (rlookup (sortKeys rec) k).map fun v => (k, v) := rfl
    _ = (sortStrings (sortStrings (rec.map Prod.fst))).filterMap
          fun k => (rlookup rec k).map fun v => (k, v) := by rw [sortKeys_keys, hfun]
    _ = (sortStrings (rec.map Prod.fst)).filterMap
          fun k => (rlookup rec k).map fun v => (k, v) := by
          rw [sortStrings_of_sorted (sortStrings_sorted _)]
    _ = sortKeys rec := rfl

theorem mem_sortKeys {α : Type} (rec : Record α) {k : String} {v : α}
    (h : (k, v) ∈ sortKeys rec) : rlookup rec k = some v := by
  rw [sortKeys] at h
  obtain ⟨a, _, ha⟩ := List.mem_filterMap.mp h
  rcases hv : rlookup rec a with _ | w
  · rw [hv] at ha; simp at ha
  · rw [hv] at ha
    simp only [Option.map_some', Option.some.injEq, Prod.mk.injEq] at ha
    obtain ⟨rfl, rfl⟩ := ha
    exact hv

/-! ### Trim and node-normalization lemmas -/

theorem dropWhile_head_not {α : Type} (p : α → Bool) :
    ∀ {l : List α} {a : α} {t : List α}, l.dropWhile p = a :: t → ¬p a := by
  intro l
  induction l with
  | nil =>
    intro a t h
    simp [List.dropWhile] at h
  | cons x xs ih =>
    intro a t h
    by_cases hx : p x
    · rw [List.dropWhile_cons, if_pos hx] at h
      exact ih h
    · rw [List.dropWhile_cons, if_neg hx] at h
      injection h with h1 _
      subst h1
      exact hx

theorem trimChars_idem (l : List Char) : trimChars (trimChars l) = trimChars l := by
  have hpre : List.rdropWhile isJsWhitespace (l.dropWhile isJsWhitespace) <+:
      l.dropWhile isJsWhitespace := List.rdropWhile_prefix _ _
  have hdw : List.dropWhile isJsWhitespace
      (List.rdropWhile isJsWhitespace (l.dropWhile isJsWhitespace)) =
      List.rdropWhile isJsWhitespace (l.dropWhile isJsWhitespace) := by
    cases hrc : List.rdropWhile isJsWhitespace (l.dropWhile isJsWhitespace) with
    | nil => rfl
    | cons a t =>
      rw [hrc] at hpre
      obtain ⟨s, hs⟩ := hpre
      have hdrop : l.dropWhile isJsWhitespace = a :: (t ++ s) := by
        rw [← hs, List.cons_append]
      have hpa : ¬isJsWhitespace a := dropWhile_head_not isJsWhitespace hdrop
      rw [List.dropWhile_cons, if_neg hpa]
  show List.rdropWhile isJsWhitespace (List.dropWhile isJsWhitespace
      (List.rdropWhile isJsWhitespace (l.dropWhile isJsWhitespace))) = _
  rw [hdw, List.rdropWhile_idempotent]
  rfl

theorem trimString_idem (s : String) : trimString (trimString s) = trimString s := by
  show String.mk (trimChars (String.mk (trimChars s.data)).data) = _
  exact congrArg String.mk (trimChars_idem s.data)

theorem normDesc_idem (d : Option String) : normDesc (normDesc d) = normDesc d := by
  rcases d with _ | s
  · rfl
  · by_cases h : trimString s = ""
    · show normDesc (normDesc (some s)) = normDesc (some s)
      rw [show normDesc (some s) = none from by simp [normDesc, h]]
      rfl
    · show normDesc (normDesc (some s)) = normDesc (some s)
      rw [show normDesc (some s) = some (trimString s) from by simp [normDesc, h]]
      simp [normDesc, trimString_idem, h]

theorem beq_true_eq (b : Bool) : (b == true) = b := by cases b <;> rfl

theorem truthyStr_idem (h : Option String) : truthyStr (truthyStr h) = truthyStr h := by
  rcases h with _ | s
  · rfl
  · by_cases he : s = ""
    · simp [truthyStr, he]
    · simp [truthyStr, he]

theorem normMd_makeMetadata (h : Option String) (b : Bool) (sz : Option JsNum) :
    normMd (makeMetadata h b sz) = makeMetadata h b sz := by
  unfold makeMetadata
  by_cases hc : truthyStr h = none ∧ b = false ∧ sz = none
  · rw [if_pos hc]
    rfl
  · rw [if_neg hc]
    show makeMetadata (truthyStr h) (b == true) sz = _
    rw [beq_true_eq]
    unfold makeMetadata
    rw [if_neg (by rw [truthyStr_idem]; exact hc), truthyStr_idem]

theorem normMd_idem (o : Option GraphNodeMetadata) : normMd (normMd o) = normMd o := by
  rcases o with _ | m
  · rfl
  · exact normMd_makeMetadata _ _ _

theorem normalizeNode_idem (n : GraphNode) :
    normalizeNode (normalizeNode n) = normalizeNode n := by
  unfold normalizeNode makeNode
  simp only [GraphNode.mk.injEq, true_and]
  exact ⟨by simp only [normDesc_idem], by simp only [normMd_idem]⟩

/-! ### Edge de-duplication and sorting lemmas -/

theorem dedupeEdgesAux_spec (l : List GraphEdge) (seen : List String) :
    ((dedupeEdgesAux l seen).Pairwise fun a b => edgeSortKey a ≠ edgeSortKey b) ∧
    (∀ e ∈ dedupeEdgesAux l seen, edgeSortKey e ∉ seen) ∧
    (∀ e ∈ l, edgeSortKey e ∈ seen ∨
      ∃ e' ∈ dedupeEdgesAux l seen, edgeSortKey e' = edgeSortKey e) := by
  induction l generalizing seen with
  | nil => simp [dedupeEdgesAux]
  | cons e rest ih =>
    by_cases h : edgeSortKey e ∈ seen
    · rw [dedupeEdgesAux, if_pos h]
      obtain ⟨ihp, ihn, ihc⟩ := ih seen
      refine ⟨ihp, ihn, ?_⟩
      intro x hx
      rcases List.mem_cons.mp hx with rfl | hx
      · exact Or.inl h
      · exact ihc x hx
    · rw [dedupeEdgesAux, if_neg h]
      obtain ⟨ihp, ihn, ihc⟩ := ih (edgeSortKey e :: seen)
      refine ⟨?_, ?_, ?_⟩
      · refine List.Pairwise.cons ?_ ihp
        intro b hb hkey
        exact ihn b hb (hkey ▸ List.mem_cons_self _ _)
      · intro x hx
        rcases List.mem_cons.mp hx with rfl | hx
        · exact h
        · exact fun hc => ihn x hx (List.mem_cons_of_mem _ hc)
      · intro x hx
        rcases List.mem_cons.mp hx with rfl | hx
        · exact Or.inr ⟨x, List.mem_cons_self _ _, rfl⟩
        · rcases ihc x hx with hin | ⟨e', he', hk⟩
          · rcases List.mem_cons.mp hin with heq | hin2
            · exact Or.inr ⟨e, List.mem_cons_self _ _, heq.symm⟩
            · exact Or.inl hin2
          · exact Or.inr ⟨e', List.mem_cons_of_mem _ he', hk⟩

theorem dedupeEdgesAux_eq_self (l : List GraphEdge) (seen : List String)
    (hp : l.Pairwise fun a b => edgeSortKey a ≠ edgeSortKey b)
    (hs : ∀ e ∈ l, edgeSortKey e ∉ seen) :
    dedupeEdgesAux l seen = l := by
  induction l generalizing seen with
  | nil => rfl
  | cons e rest ih =>
    rw [dedupeEdgesAux, if_neg (hs e (List.mem_cons_self _ _))]
    congr 1
    refine ih _ hp.of_cons ?_
    intro x hx
    intro hmem
    rcases List.mem_cons.mp hmem with heq | hin
    · exact (List.pairwise_cons.mp hp).1 x hx heq.symm
    · exact hs x (List.mem_cons_of_mem _ hx) hin

theorem sortAndDedupeEdges_sorted (l : List GraphEdge) :
    (sortAndDedupeEdges l).Sorted EdgeLE :=
  List.sorted_insertionSort _ _

theorem sortAndDedupeEdges_pairwise_keys (l : List GraphEdge) :
    (sortAndDedupeEdges l).Pairwise fun a b => edgeSortKey a ≠ edgeSortKey b := by
  have hperm := List.perm_insertionSort EdgeLE (dedupeEdgesAux l [])
  exact (hperm.pairwise_iff (by intro x y hxy hc; exact hxy hc.symm)).mpr
    (dedupeEdgesAux_spec l []).1

theorem sortAndDedupeEdges_covers (l : List GraphEdge) :
    ∀ e ∈ l, ∃ e' ∈ sortAndDedupeEdges l, edgeSortKey e' = edgeSortKey e := by
  intro e he
  rcases (dedupeEdgesAux_spec l []).2.2 e he with hin | ⟨e', he', hk⟩
  · simp at hin
  · exact ⟨e', (List.mem_insertionSort EdgeLE).mpr he', hk⟩

theorem sortAndDedupeEdges_idem (l : List GraphEdge) :
    sortAndDedupeEdges (sortAndDedupeEdges l) = sortAndDedupeEdges l := by
  unfold sortAndDedupeEdges
  rw [dedupeEdgesAux_eq_self _ []
    (by simpa [sortAndDedupeEdges] using sortAndDedupeEdges_pairwise_keys l)
    (by simp)]
  exact (List.sorted_insertionSort EdgeLE (dedupeEdgesAux l [])).insertionSort_eq

/-! ### `finalizeGraph` structure lemmas -/

theorem fin_nodes (g : DependencyGraph) :
    (finalizeGraph g).nodes = sortKeys (g.nodes.map fun p => (p.1, normalizeNode p.2)) := rfl

theorem fin_edges (g : DependencyGraph) :
    (finalizeGraph g).edges =
      sortKeys (((finalizeGraph g).nodes.map Prod.fst).map fun id =>
        (id, sortAndDedupeEdges ((rlookup g.edges id).getD []))) := rfl

theorem fin_edges_rlookup (g : DependencyGraph) (id : String) :
    rlookup (finalizeGraph g).edges id =
      if id ∈ (finalizeGraph g).nodes.map Prod.fst then
        some (sortAndDedupeEdges ((rlookup g.edges id).getD []))
      else none := by
  rw [fin_edges, sortKeys_rlookup, rlookup_keysMap]

theorem fin_nodes_mem_normalized (g : DependencyGraph) {p : String × GraphNode}
    (hp : p ∈ (finalizeGraph g).nodes) : (p.1, normalizeNode p.2) = p := by
  obtain ⟨k, v⟩ := p
  have hlk := mem_sortKeys _ (fin_nodes g ▸ hp)
  rw [rlookup_map_value] at hlk
  obtain ⟨w, _, hw2⟩ := Option.map_eq_some'.mp hlk
  simp only [Prod.mk.injEq, true_and]
  rw [← hw2, normalizeNode_idem]

end StanContext

namespace StanContext

/-- C2: after finalization the edges map has a key for every node key (an
edgeless node maps to an explicit, possibly empty, list rather than a missing
key), every edge list is sorted ascending by target, then kind, then
resolution, and de-duplicated on that triple (with every input edge still
represented up to the triple), and node keys are in ascending lexicographic
order. -/
theorem finalizeGraph_edges_invariant (g : DependencyGraph) :
    (∀ id, id ∈ (finalizeGraph g).nodes.map Prod.fst →
      (rlookup (finalizeGraph g).edges id).isSome) ∧
    (∀ id l, rlookup (finalizeGraph g).edges id = some l →
      l.Sorted EdgeLE ∧
      (l.Pairwise fun a b =>
        ¬(a.target = b.target ∧ a.kind = b.kind ∧ a.resolution = b.resolution)) ∧
      (∀ e ∈ (rlookup g.edges id).getD [], ∃ e' ∈ l, edgeSortKey e' = edgeSortKey e)) ∧
    ((finalizeGraph g).nodes.map Prod.fst).Sorted strLE := by
  refine ⟨?_, ?_, ?_⟩
  · intro id hid
    rw [fin_edges_rlookup, if_pos hid]
    rfl
  · intro id l hl
    rw [fin_edges_rlookup] at hl
    by_cases hid : id ∈ (finalizeGraph g).nodes.map Prod.fst
    · rw [if_pos hid] at hl
      injection hl with hl
      subst hl
      refine ⟨sortAndDedupeEdges_sorted _, ?_, sortAndDedupeEdges_covers _⟩
      refine (sortAndDedupeEdges_pairwise_keys _).imp ?_
      intro a b hk hc
      obtain ⟨h1, h2, h3⟩ := hc
      exact hk (by rw [edgeSortKey, edgeSortKey, h1, h2, h3])
    · rw [if_neg hid] at hl
      exact absurd hl (by simp)
  · rw [fin_nodes]
    exact sortKeys_sorted_keys _

/-- C9: finalization is idempotent. -/
theorem finalizeGraph_idempotent (g : DependencyGraph) :
    finalizeGraph (finalizeGraph g) = finalizeGraph g := by
  have hnodes : (finalizeGraph (finalizeGraph g)).nodes = (finalizeGraph g).nodes := by
    rw [fin_nodes (finalizeGraph g)]
    have hmap : (finalizeGraph g).nodes.map (fun p => (p.1, normalizeNode p.2)) =
        (finalizeGraph g).nodes := by
      rw [List.map_congr_left fun p hp => fin_nodes_mem_normalized g hp]
      exact List.map_id _
    rw [hmap, fin_nodes g, sortKeys_idem]
  have hedges : (finalizeGraph (finalizeGraph g)).edges = (finalizeGraph g).edges := by
    rw [fin_edges (finalizeGraph g), hnodes]
    have hmap : ((finalizeGraph g).nodes.map Prod.fst).map
        (fun id => (id, sortAndDedupeEdges ((rlookup (finalizeGraph g).edges id).getD []))) =
        ((finalizeGraph g).nodes.map Prod.fst).map
        (fun id => (id, sortAndDedupeEdges ((rlookup g.edges id).getD []))) := by
      refine List.map_congr_left ?_
      intro id hid
      rw [fin_edges_rlookup, if_pos hid]
      simp only [Option.getD_some]
      rw [sortAndDedupeEdges_idem]
    rw [hmap, ← fin_edges g]
  cases hf2 : finalizeGraph (finalizeGraph g)
  cases hf1 : finalizeGraph g
  rw [hf2, hf1] at hnodes hedges
  simp only at hnodes hedges
  rw [hnodes, hedges]

/-- C10: the key sequence of the finalized edges map is exactly the key
sequence of the finalized nodes map; edge lists recorded under ids absent from
the input nodes are dropped. -/
theorem finalizeGraph_edge_keys_match (g : DependencyGraph) :
    (finalizeGraph g).edges.map Prod.fst = (finalizeGraph g).nodes.map Prod.fst ∧
    (∀ id, id ∉ g.nodes.map Prod.fst → rlookup (finalizeGraph g).edges id = none) := by
  constructor
  · rw [fin_edges, sortKeys_keys]
    have hk : (((finalizeGraph g).nodes.map Prod.fst).map fun id =>
        (id, sortAndDedupeEdges ((rlookup g.edges id).getD []))).map Prod.fst =
        (finalizeGraph g).nodes.map Prod.fst := by
      rw [List.map_map]
      exact List.map_id _
    rw [hk]
    exact sortStrings_of_sorted (fin_nodes g ▸ sortKeys_sorted_keys _)
  · intro id hid
    rw [fin_edges_rlookup]
    have hnk : (finalizeGraph g).nodes.map Prod.fst = sortStrings (g.nodes.map Prod.fst) := by
      rw [fin_nodes, sortKeys_keys, List.map_map]
      congr 1
    rw [if_neg]
    rw [hnk, mem_sortStrings]
    exact hid

/-- Witness for C2 at the concrete fixture graph. -/
theorem finalizeGraph_edges_invariant_witness :
    (rlookup (finalizeGraph graphFixture).edges "a").isSome ∧
    (fixtureEdgesA.Sorted EdgeLE ∧
      (fixtureEdgesA.Pairwise fun a b =>
        ¬(a.target = b.target ∧ a.kind = b.kind ∧ a.resolution = b.resolution)) ∧
      (∀ e ∈ (rlookup graphFixture.edges "a").getD [],
        ∃ e' ∈ fixtureEdgesA, edgeSortKey e' = edgeSortKey e)) :=
  ⟨(finalizeGraph_edges_invariant graphFixture).1 "a" (by decide),
   (finalizeGraph_edges_invariant graphFixture).2.1 "a" fixtureEdgesA (by decide)⟩

/-- Witness for C10 at the concrete fixture graph: the `zzz` edge list of the
input is dropped because `zzz` is not a node key. -/
theorem finalizeGraph_edge_keys_match_witness :
    rlookup (finalizeGraph graphFixture).edges "zzz" = none :=
  (finalizeGraph_edge_keys_match graphFixture).2 "zzz" (by decide)

/-- C4 counterexample: with an external barrel (its path contains
`/node_modules/`) whose package root exists, a declaration file with no
discoverable package root is dropped from the tunneled result, not retained. -/
theorem tunnelFilteredDecls_drops_rootless_cex :
    isNodeModulesPath "/r/node_modules/pkg/index.d.ts" = true ∧
    pkgRootCex "/r/x.d.ts" = none ∧
    tunnelFilteredDecls pkgRootCex false "/r/node_modules/pkg/index.d.ts" ["/r/x.d.ts"] = [] :=
  ⟨by decide, by decide, by decide⟩

/-- C4 amended: for an external barrel, when the barrel has no discoverable
package root the declaration list passes through unfiltered; when it has root
`R`, exactly the declaration files whose own nearest package root equals `R`
are kept (files with no discoverable package root are dropped). -/
theorem tunnelFilteredDecls_commander_spec (pkgRoot : String → Option String)
    (ext : Bool) (barrel : String) (decls : List String)
    (hext : (ext || isNodeModulesPath barrel) = true) :
    (pkgRoot barrel = none → tunnelFilteredDecls pkgRoot ext barrel decls = decls) ∧
    (∀ R, pkgRoot barrel = some R →
      ∀ p, p ∈ tunnelFilteredDecls pkgRoot ext barrel decls ↔
        p ∈ decls ∧ pkgRoot p = some R) := by
  constructor
  · intro hnone
    simp [tunnelFilteredDecls, hext, filterCommanderRule, hnone]
  · intro R hR p
    simp only [tunnelFilteredDecls, hext, if_true, filterCommanderRule, hR]
    constructor
    · intro hmem
      obtain ⟨hp, hf⟩ := List.mem_filter.mp hmem
      rcases hq : pkgRoot p with _ | d
      · simp [hq] at hf
      · simp only [hq, beq_iff_eq] at hf
        exact ⟨hp, congrArg some hf⟩
    · rintro ⟨hp, hq⟩
      refine List.mem_filter.mpr ⟨hp, ?_⟩
      simp [hq]

/-! ### Selection lemmas -/

theorem mem_setAdd_self (s : List String) (x : String) : x ∈ setAdd s x := by
  unfold setAdd
  by_cases h : x ∈ s
  · simp [h]
  · simp [h]

theorem mem_setAdd_of_mem {s : List String} {x : String} (y : String)
    (h : x ∈ s) : x ∈ setAdd s y := by
  unfold setAdd
  by_cases hy : y ∈ s
  · simpa [hy]
  · simp [hy, h]

theorem mem_of_mem_uniqAux {α : Type} [DecidableEq α] :
    ∀ {l seen : List α} {x : α}, x ∈ uniqAux l seen → x ∈ l := by
  intro l
  induction l with
  | nil => intro seen x h; simp [uniqAux] at h
  | cons y rest ih =>
    intro seen x h
    rw [uniqAux] at h
    by_cases hy : y ∈ seen
    · rw [if_pos hy] at h
      exact List.mem_cons_of_mem _ (ih h)
    · rw [if_neg hy] at h
      rcases List.mem_cons.mp h with rfl | h2
      · exact List.mem_cons_self _ _
      · exact List.mem_cons_of_mem _ (ih h2)

theorem mem_uniqAux_of_mem {α : Type} [DecidableEq α] :
    ∀ {l seen : List α} {x : α}, x ∈ l → x ∉ seen → x ∈ uniqAux l seen := by
  intro l
  induction l with
  | nil => intro seen x h; simp at h
  | cons y rest ih =>
    intro seen x h hs
    rw [uniqAux]
    by_cases hy : y ∈ seen
    · rw [if_pos hy]
      rcases List.mem_cons.mp h with rfl | h2
      · exact absurd hy hs
      · exact ih h2 hs
    · rw [if_neg hy]
      rcases List.mem_cons.mp h with rfl | h2
      · exact List.mem_cons_self _ _
      · by_cases hxy : x = y
        · subst hxy
          exact List.mem_cons_self _ _
        · refine List.mem_cons_of_mem _ (ih h2 ?_)
          intro hc
          rcases List.mem_cons.mp hc with h3 | h3
          · exact hxy h3
          · exact hs h3

theorem mem_uniqList_of_mem {α : Type} [DecidableEq α] {l : List α} {x : α}
    (h : x ∈ l) : x ∈ uniqList l :=
  mem_uniqAux_of_mem h (by simp)

theorem mem_of_mem_uniqList {α : Type} [DecidableEq α] {l : List α} {x : α}
    (h : x ∈ uniqList l) : x ∈ l :=
  mem_of_mem_uniqAux h

theorem warnFileMissing_mono {w : List String} {x : String}
    (ids : List String) (h : x ∈ w) : x ∈ warnFileMissing w ids := by
  induction ids generalizing w with
  | nil => exact h
  | cons a rest ih => exact ih (mem_setAdd_of_mem _ h)

theorem mem_warnFileMissing {id : String} (w : List String) {ids : List String}
    (h : id ∈ ids) :
    ("metadata.size missing for file node: " ++ id) ∈ warnFileMissing w ids := by
  induction ids generalizing w with
  | nil => simp at h
  | cons a rest ih =>
    rcases List.mem_cons.mp h with rfl | h2
    · exact warnFileMissing_mono rest (mem_setAdd_self _ _)
    · exact ih _ h2

theorem aggStep_file_mono (graph : DependencyGraph) (acc : AggState) (id x : String)
    (h : x ∈ acc.missingSizeFileNode) :
    x ∈ (aggStep graph acc id).missingSizeFileNode := by
  unfold aggStep
  rcases hr : rlookup graph.nodes id with _ | nd
  · simpa using h
  · simp only []
    split_ifs <;> simp [h]

theorem aggStep_hashed_mono (graph : DependencyGraph) (acc : AggState) (id x : String)
    (h : x ∈ acc.missingSizeHashed) :
    x ∈ (aggStep graph acc id).missingSizeHashed := by
  unfold aggStep
  rcases hr : rlookup graph.nodes id with _ | nd
  · simpa using h
  · simp only []
    split_ifs <;> simp [h]

theorem aggStep_file_self (graph : DependencyGraph) (acc : AggState) {id : String}
    {n : GraphNode} (hn : rlookup graph.nodes id = some n)
    (hkind : (n.kind == GraphNodeKind.source || n.kind == GraphNodeKind.external) = true)
    (hsz : sizeIsNumber n = false) :
    id ∈ (aggStep graph acc id).missingSizeFileNode := by
  unfold aggStep
  rw [hn]
  simp only []
  have hcond : ((n.kind == GraphNodeKind.source || n.kind == GraphNodeKind.external) &&
      !sizeIsNumber n) = true := by rw [hkind, hsz]; rfl
  rw [if_pos hcond]
  split_ifs <;> simp

theorem aggStep_hashed_src (graph : DependencyGraph) (acc : AggState) (id x : String)
    (h : x ∈ (aggStep graph acc id).missingSizeHashed) :
    x ∈ acc.missingSizeHashed ∨
      (x = id ∧ ∃ n', rlookup graph.nodes id = some n' ∧ isFileNodeWithHash n' = true) := by
  unfold aggStep at h
  rcases hr : rlookup graph.nodes id with _ | nd
  · rw [hr] at h
    exact Or.inl (by simpa using h)
  · rw [hr] at h
    simp only [] at h
    by_cases hh : (isFileNodeWithHash nd && !sizeIsNumber nd) = true
    · rw [if_pos hh] at h
      split_ifs at h <;> simp only [List.mem_append, List.mem_singleton] at h <;>
        rcases h with h | h
      · exact Or.inl (by simpa using h)
      · exact Or.inr ⟨h, nd, rfl, by simp only [Bool.and_eq_true] at hh; exact hh.1⟩
      · exact Or.inl (by simpa using h)
      · exact Or.inr ⟨h, nd, rfl, by simp only [Bool.and_eq_true] at hh; exact hh.1⟩
    · rw [if_neg hh] at h
      split_ifs at h <;> exact Or.inl (by simpa using h)

theorem aggFold_file_mono (graph : DependencyGraph) :
    ∀ (ids : List String) (acc : AggState) (x : String),
      x ∈ acc.missingSizeFileNode →
      x ∈ (ids.foldl (aggStep graph) acc).missingSizeFileNode := by
  intro ids
  induction ids with
  | nil => intro acc x h; exact h
  | cons a rest ih =>
    intro acc x h
    exact ih _ x (aggStep_file_mono graph acc a x h)

theorem aggFold_file_mem (graph : DependencyGraph) :
    ∀ (ids : List String) (acc : AggState) {id : String} {n : GraphNode},
      id ∈ ids → rlookup graph.nodes id = some n →
      (n.kind == GraphNodeKind.source || n.kind == GraphNodeKind.external) = true →
      sizeIsNumber n = false →
      id ∈ (ids.foldl (aggStep graph) acc).missingSizeFileNode := by
  intro ids
  induction ids with
  | nil => intro acc id n h; simp at h
  | cons a rest ih =>
    intro acc id n hid hn hkind hsz
    rcases List.mem_cons.mp hid with rfl | h2
    · exact aggFold_file_mono graph rest _ id (aggStep_file_self graph acc hn hkind hsz)
    · exact ih _ h2 hn hkind hsz

theorem aggFold_hashed_src (graph : DependencyGraph) :
    ∀ (ids : List String) (acc : AggState) (x : String),
      x ∈ (ids.foldl (aggStep graph) acc).missingSizeHashed →
      x ∈ acc.missingSizeHashed ∨
        ∃ n', rlookup graph.nodes x = some n' ∧ isFileNodeWithHash n' = true := by
  intro ids
  induction ids with
  | nil => intro acc x h; exact Or.inl h
  | cons a rest ih =>
    intro acc x h
    rcases ih _ x h with h2 | h2
    · rcases aggStep_hashed_src graph acc a x h2 with h3 | h3
      · exact Or.inl h3
      · obtain ⟨rfl, hex⟩ := h3
        exact Or.inr hex
    · exact Or.inr h2

theorem summarizeTail_selected (graph : DependencyGraph) (ids : List String)
    (maxTop : ℤ) (w4 : List String) (enf : HashSizeEnforcement) (s : SelectionSummary)
    (hres : summarizeTail graph ids maxTop w4 enf = .ok s) :
    s.selectedNodeIds = ids := by
  unfold summarizeTail at hres
  cases enf with
  | warn =>
    simp only [Except.ok.injEq] at hres
    subst hres
    rfl
  | error =>
    simp only [] at hres
    split_ifs at hres
    simp only [Except.ok.injEq] at hres
    subst hres
    rfl
  | ignore =>
    simp only [Except.ok.injEq] at hres
    subst hres
    rfl

theorem summarizeTail_file_warning
    (graph : DependencyGraph) (ids : List String) (maxTop : ℤ) (w4 : List String)
    (enf : HashSizeEnforcement) (s : SelectionSummary)
    (hres : summarizeTail graph ids maxTop w4 enf = .ok s)
    {id : String} {n : GraphNode}
    (hid : id ∈ ids) (hn : rlookup graph.nodes id = some n)
    (hkind : (n.kind == GraphNodeKind.source || n.kind == GraphNodeKind.external) = true)
    (hsz : sizeIsNumber n = false)
    (hnothash : isFileNodeWithHash n = false) :
    ("metadata.size missing for file node: " ++ id) ∈ s.warnings := by
  have hagg : aggregate graph ids = ids.foldl (aggStep graph) ⟨[], [], 0, []⟩ := rfl
  have hfile : id ∈ (aggregate graph ids).missingSizeFileNode := by
    rw [hagg]
    exact aggFold_file_mem graph ids _ hid hn hkind hsz
  have hnot : id ∉ sortStrings (uniqList (aggregate graph ids).missingSizeHashed) := by
    intro hc
    rw [mem_sortStrings] at hc
    have h2 := mem_of_mem_uniqList hc
    rw [hagg] at h2
    rcases aggFold_hashed_src graph ids _ id h2 with h3 | ⟨n', hn', hh⟩
    · simp at h3
    · rw [hn] at hn'
      injection hn' with he
      rw [← he] at hh
      exact absurd hh (by rw [hnothash]; simp)
  have hmem : id ∈ sortStrings ((uniqList (aggregate graph ids).missingSizeFileNode).filter
      fun x => x ∉ sortStrings (uniqList (aggregate graph ids).missingSizeHashed)) := by
    rw [mem_sortStrings]
    exact List.mem_filter.mpr ⟨mem_uniqList_of_mem hfile, decide_eq_true hnot⟩
  unfold summarizeTail at hres
  cases enf with
  | warn =>
    simp only [Except.ok.injEq] at hres
    subst hres
    show _ ∈ sortStrings (warnFileMissing _ _)
    rw [mem_sortStrings]
    exact mem_warnFileMissing _ hmem
  | error =>
    simp only [] at hres
    split_ifs at hres
    simp only [Except.ok.injEq] at hres
    subst hres
    show _ ∈ sortStrings (warnFileMissing _ _)
    rw [mem_sortStrings]
    exact mem_warnFileMissing _ hmem
  | ignore =>
    simp only [Except.ok.injEq] at hres
    subst hres
    show _ ∈ sortStrings (warnFileMissing _ _)
    rw [mem_sortStrings]
    exact mem_warnFileMissing _ hmem

/-- C5 counterexample: a numeric bitmask third element (3 = runtime|type) is
not canonicalized; it warns and traverses nothing, while the equivalent list
form traverses the runtime and type closure. -/
theorem summarize_bitmask_cex :
    (summarizeDependencySelection selFixture [.arr [.str "a.ts", .num (.fin 1), .num (.fin 3)]]
      [] optsDefault).map (fun s => s.selectedNodeIds) = .ok ["a.ts"] ∧
    (summarizeDependencySelection selFixture [.arr [.str "a.ts", .num (.fin 1), .num (.fin 3)]]
      [] optsDefault).map (fun s => s.warnings) =
      .ok ["Invalid edgeKinds for entry[0]: expected array; using none.",
        "metadata.size missing for file node: a.ts"] ∧
    (summarizeDependencySelection selFixture [.arr [.str "a.ts", .num (.fin 1),
      .arr [.str "runtime", .str "type"]]] [] optsDefault).map (fun s => s.selectedNodeIds) =
      .ok ["a.ts", "b.ts", "t.ts"] :=
  ⟨rfl, rfl, rfl⟩

/-- C5 amended: `normalizeEdgeKinds` accepts only the array form. A missing
third element falls back to the defaults; any non-array (in particular a
numeric bitmask) yields no kinds plus the "expected array" warning; an array
is canonicalized by keeping valid names and de-duplicating. -/
theorem normalizeEdgeKinds_no_bitmask (fallback : List GraphEdgeKind)
    (warnings : List String) (label : String) :
    normalizeEdgeKinds .und fallback warnings label = (fallback, warnings) ∧
    (∀ x : JsNum, normalizeEdgeKinds (.num x) fallback warnings label =
      ([], setAdd warnings ("Invalid edgeKinds for " ++ label ++ ": expected array; using none."))) ∧
    (∀ elems, (normalizeEdgeKinds (.arr elems) fallback warnings label).1 =
      uniqList (elems.filterMap fun k =>
        match k with
        | .str s => parseEdgeKind s
        | _ => none)) :=
  ⟨rfl, fun _ => rfl, fun _ => rfl⟩

/-- C6 counterexample: the entry `["a.ts", 1.5]` has an invalid (non-integer)
depth; the effective depth is 1 (the floor), not 0: the depth-1 closure of
`a.ts` is selected, unlike with depth 0. The warning is still emitted. -/
theorem summarize_depth_floor_cex :
    (summarizeDependencySelection selFixture [.arr [.str "a.ts", .num (.fin (mkRat 3 2))]] []
      optsDefault).map (fun s => s.selectedNodeIds) = .ok ["a.ts", "b.ts", "t.ts"] ∧
    (summarizeDependencySelection selFixture [.arr [.str "a.ts", .num (.fin (mkRat 3 2))]] []
      optsDefault).map (fun s => s.warnings) =
      .ok ["Invalid depth for entry[0]: expected integer >= 0; using 1.",
        "metadata.size missing for file node: a.ts",
        "metadata.size missing for file node: b.ts",
        "metadata.size missing for file node: t.ts"] ∧
    (summarizeDependencySelection selFixture [.arr [.str "a.ts", .num (.fin 0)]] []
      optsDefault).map (fun s => s.selectedNodeIds) = .ok ["a.ts"] :=
  ⟨rfl, rfl, rfl⟩

/-- C6 amended: for a tuple entry with a valid node id, the effective depth is
`clampInt(depth, 0)` — `max 0 ⌊d⌋` for a finite number `d` and `0` otherwise —
so negative and non-numeric depths clamp to 0 while non-integer positive
depths floor; and exactly when the raw depth is not a finite non-negative
integer, the warning referencing the entry index is emitted. -/
theorem normalizeEntry_depth_spec (sid : String) (raw2 : JsVal)
    (defaults : List GraphEdgeKind) (warnings : List String) (i : ℕ)
    (hsid : ¬trimString sid = "") :
    ((normalizeEntry (.arr [.str sid, raw2]) defaults warnings i).1.depth =
      clampInt raw2 0) ∧
    (∀ q : ℚ, raw2 = .num (.fin q) → 0 ≤ q → (⌊q⌋ : ℚ) = q →
      (normalizeEntry (.arr [.str sid, raw2]) defaults warnings i).2 = warnings) ∧
    (¬(∃ q : ℚ, raw2 = .num (.fin q) ∧ 0 ≤ q ∧ (⌊q⌋ : ℚ) = q) →
      ("Invalid depth for " ++ ("entry[" ++ natStr i ++ "]") ++
        ": expected integer >= 0; using " ++ natStr (clampInt raw2 0).toNat ++ ".") ∈
        (normalizeEntry (.arr [.str sid, raw2]) defaults warnings i).2) := by
  have hred : normalizeEntry (.arr [.str sid, raw2]) defaults warnings i =
      ({ nodeId := sid, depth := clampInt raw2 0, edgeKinds := defaults },
        if eqNumFin raw2 (clampInt raw2 0) = true then warnings
        else if isSafeDepth raw2 = true then warnings
        else setAdd warnings ("Invalid depth for " ++ ("entry[" ++ natStr i ++ "]") ++
          ": expected integer >= 0; using " ++ natStr (clampInt raw2 0).toNat ++ ".")) := by
    unfold normalizeEntry
    simp only [jsIndex, List.getD, List.get?, Option.getD_some, Option.getD_none]
    rw [if_neg hsid]
    rfl
  refine ⟨by rw [hred], ?_, ?_⟩
  · intro q hq h0 hint
    subst hq
    rw [hred]
    have hd : clampInt (.num (.fin q)) 0 = ⌊q⌋ := by
      show Max.max 0 ⌊q⌋ = ⌊q⌋
      have := Int.floor_nonneg.mpr h0
      omega
    have he : eqNumFin (.num (.fin q)) (clampInt (.num (.fin q)) 0) = true := by
      rw [hd]
      show (q == ((⌊q⌋ : ℤ) : ℚ)) = true
      rw [beq_iff_eq]
      exact hint.symm
    rw [if_pos he]
  · intro hnex
    rw [hred]
    have he : eqNumFin raw2 (clampInt raw2 0) = false := by
      rcases raw2 with _ | _ | b | x | s | elems
      case num =>
        rcases x with q | _ | _
        case fin =>
          rw [Bool.eq_false_iff]
          intro htrue
          have hq : q = ((Max.max 0 ⌊q⌋ : ℤ) : ℚ) := by
            have := htrue
            rw [show eqNumFin (.num (.fin q)) (clampInt (.num (.fin q)) 0) =
              (q == ((Max.max 0 ⌊q⌋ : ℤ) : ℚ)) from rfl, beq_iff_eq] at this
            exact this
          refine hnex ⟨q, rfl, ?_, ?_⟩
          · rw [hq]
            exact_mod_cast le_max_left 0 ⌊q⌋
          · rw [hq, Int.floor_intCast]
        all_goals rfl
      all_goals rfl
    have hs : isSafeDepth raw2 = false := by
      rcases raw2 with _ | _ | b | x | s | elems
      case num =>
        rcases x with q | _ | _
        case fin =>
          rw [Bool.eq_false_iff]
          intro htrue
          rw [show isSafeDepth (.num (.fin q)) =
            (decide (0 ≤ q) && decide ((⌊q⌋ : ℚ) = q)) from rfl, Bool.and_eq_true,
            decide_eq_true_eq, decide_eq_true_eq] at htrue
          exact hnex ⟨q, rfl, htrue.1, htrue.2⟩
        all_goals rfl
      all_goals rfl
    rw [if_neg (by simp [he]), if_neg (by simp [hs])]
    exact mem_setAdd_self _ _

/-- Witness for the C6 amended theorem at the concrete entry `["a.ts", 1.5]`. -/
theorem normalizeEntry_depth_spec_witness :
    (normalizeEntry (.arr [.str "a.ts", .num (.fin (mkRat 3 2))])
      DEFAULT_EDGE_KINDS [] 0).1.depth = 1 ∧
    ("Invalid depth for " ++ ("entry[" ++ natStr 0 ++ "]") ++
      ": expected integer >= 0; using " ++
      natStr (clampInt (.num (.fin (mkRat 3 2))) 0).toNat ++ ".") ∈
      (normalizeEntry (.arr [.str "a.ts", .num (.fin (mkRat 3 2))])
        DEFAULT_EDGE_KINDS [] 0).2 := by
  have hspec := normalizeEntry_depth_spec "a.ts" (.num (.fin (mkRat 3 2)))
    DEFAULT_EDGE_KINDS [] 0 (by decide)
  refine ⟨?_, ?_⟩
  · rw [hspec.1]
    rfl
  · refine hspec.2.2 ?_
    rintro ⟨q, hq, h0, hint⟩
    injection hq with hq1
    injection hq1 with hq2
    rw [← hq2] at hint
    rw [show ((⌊(mkRat 3 2 : ℚ)⌋ : ℤ) : ℚ) = 1 from by norm_num [Rat.mkRat_eq_div]] at hint
    rw [show (mkRat 3 2 : ℚ) = 3 / 2 from by norm_num [Rat.mkRat_eq_div]] at hint
    norm_num at hint

/-- C7 counterexample: under the `ignore` policy, the per-file missing-size
warning is still emitted for a non-hashed file node without `metadata.size`. -/
theorem summarize_ignore_policy_cex :
    (summarizeDependencySelection missFixture [.str "m.ts"] []
      ⟨none, none, none, some .ignore⟩).map (fun s => s.warnings) =
      .ok ["metadata.size missing for file node: m.ts"] :=
  rfl

/-- C7 amended: whenever `summarizeDependencySelection` returns (it always
does under `warn` and `ignore`; under `error` whenever no hashed-node
violation throws first), every selected file node (source or external) that
lacks `metadata.size` and is not hashed produces the warning
`"metadata.size missing for file node: <id>"` — under every policy,
including `ignore`. -/
theorem summarize_file_missing_warning (graph : DependencyGraph)
    (includeEntries excludeEntries : List JsVal) (options : SummarizeOptions)
    (s : SelectionSummary)
    (hres : summarizeDependencySelection graph includeEntries excludeEntries options = .ok s)
    (id : String) (n : GraphNode)
    (hid : id ∈ s.selectedNodeIds) (hn : rlookup graph.nodes id = some n)
    (hkind : n.kind = .source ∨ n.kind = .external)
    (hsz : sizeIsNumber n = false)
    (hnothash : isFileNodeWithHash n = false) :
    ("metadata.size missing for file node: " ++ id) ∈ s.warnings := by
  obtain ⟨ids, mt, w4v, enfv, hres'⟩ :
      ∃ ids mt w4v enfv, summarizeTail graph ids mt w4v enfv = .ok s := ⟨_, _, _, _, hres⟩
  have hsel := summarizeTail_selected graph ids mt w4v enfv s hres'
  rw [hsel] at hid
  have hkb : (n.kind == GraphNodeKind.source || n.kind == GraphNodeKind.external) = true := by
    rcases hkind with h | h <;> rw [h] <;> rfl
  exact summarizeTail_file_warning graph ids mt w4v enfv s hres' hid hn hkb hsz hnothash

unseal Rat.add in
/-- Witness for the C7 amended theorem, at the `ignore` policy. -/
theorem summarize_file_missing_warning_witness :
    ("metadata.size missing for file node: " ++ "m.ts") ∈ missSummary.warnings :=
  summarize_file_missing_warning missFixture [.str "m.ts"] []
    ⟨none, none, none, some .ignore⟩ missSummary (by rfl) "m.ts"
    ⟨"m.ts", .source, .ts, none, none⟩ (by decide) rfl (Or.inl rfl) rfl rfl

end StanContext

namespace StanContext

/-- Witness for the C4 amended theorem at the concrete oracle. -/
theorem tunnelFilteredDecls_commander_spec_witness :
    "/r/x.d.ts" ∈ tunnelFilteredDecls pkgRootCex false "/r/node_modules/pkg/index.d.ts"
        ["/r/x.d.ts"] ↔
      ("/r/x.d.ts" ∈ ["/r/x.d.ts"] ∧ pkgRootCex "/r/x.d.ts" = some "/r/node_modules/pkg") :=
  (tunnelFilteredDecls_commander_spec pkgRootCex false "/r/node_modules/pkg/index.d.ts"
    ["/r/x.d.ts"] (by decide)).2 "/r/node_modules/pkg" (by decide) "/r/x.d.ts"

end StanContext

namespace StanContext

/-! ### Incremental planning: reverse-dependency lemmas -/

theorem rlookup_rset {α : Type} (m : Record α) (key : String) (v : α) (k : String) :
    rlookup (rset m key v) k = if k = key then some v else rlookup m k := by
  induction m with
  | nil =>
    simp only [rset, rlookup]
    by_cases h : k = key
    · subst h; simp
    · rw [if_neg (fun hh => h hh.symm), if_neg h]
  | cons p rest ih =>
    obtain ⟨a, w⟩ := p
    simp only [rset]
    by_cases hak : a = key
    · rw [if_pos hak]
      subst hak
      simp only [rlookup]
      by_cases h : a = k
      · subst h; simp
      · rw [if_neg h, if_neg h, if_neg (fun hh : k = a => h hh.symm)]
    · rw [if_neg hak]
      simp only [rlookup, ih]
      by_cases h : a = k
      · subst h
        rw [if_pos rfl, if_pos rfl, if_neg (fun hh : a = key => hak hh)]
      · rw [if_neg h, if_neg h]

theorem rlookup_mem {α : Type} :
    ∀ {m : Record α} {k : String} {v : α}, rlookup m k = some v → (k, v) ∈ m := by
  intro m
  induction m with
  | nil => intro k v h; simp [rlookup] at h
  | cons p rest ih =>
    intro k v h
    obtain ⟨a, w⟩ := p
    simp only [rlookup] at h
    by_cases hak : a = k
    · rw [if_pos hak] at h
      subst hak
      cases h
      exact List.mem_cons_self _ _
    · rw [if_neg hak] at h
      exact List.mem_cons_of_mem _ (ih h)

theorem rlookup_revAdd_self (rev : Record (List String)) (t s : String) :
    s ∈ (rlookup (revAdd rev t s) t).getD [] := by
  simp only [revAdd, rlookup_rset, if_pos rfl, Option.getD_some]
  by_cases h : s ∈ (rlookup rev t).getD []
  · rw [if_pos h]; exact h
  · rw [if_neg h]; simp

theorem rlookup_revAdd_mono (rev : Record (List String)) (t s k x : String)
    (hx : x ∈ (rlookup rev k).getD []) : x ∈ (rlookup (revAdd rev t s) k).getD [] := by
  simp only [revAdd, rlookup_rset]
  by_cases hk : k = t
  · subst hk
    rw [if_pos rfl]
    simp only [Option.getD_some]
    by_cases h : s ∈ (rlookup rev k).getD []
    · rw [if_pos h]; exact hx
    · rw [if_neg h]; exact List.mem_append_left _ hx
  · rw [if_neg hk]; exact hx

theorem revFold_edges_mono (src : String) (outs : List GraphEdge) :
    ∀ (rev : Record (List String)) (k x : String),
      x ∈ (rlookup rev k).getD [] →
      x ∈ (rlookup (outs.foldl (fun rev e => revAdd rev e.target src) rev) k).getD [] := by
  induction outs with
  | nil => intro rev k x hx; exact hx
  | cons e rest ih =>
    intro rev k x hx
    exact ih _ k x (rlookup_revAdd_mono rev e.target src k x hx)

theorem revFold_edges_mem (src : String) (outs : List GraphEdge) :
    ∀ (rev : Record (List String)) {e : GraphEdge}, e ∈ outs →
      src ∈ (rlookup (outs.foldl (fun rev e => revAdd rev e.target src) rev) e.target).getD [] := by
  induction outs with
  | nil => intro rev e he; exact absurd he (List.not_mem_nil e)
  | cons e0 rest ih =>
    intro rev e he
    rcases List.mem_cons.mp he with rfl | he
    · exact revFold_edges_mono src rest _ e.target src (rlookup_revAdd_self rev e.target src)
    · exact ih _ he

theorem buildRevFold_mono (edges : Record (List GraphEdge)) :
    ∀ (rev : Record (List String)) (k x : String),
      x ∈ (rlookup rev k).getD [] →
      x ∈ (rlookup (edges.foldl
            (fun rev p => p.2.foldl (fun rev e => revAdd rev e.target p.1) rev) rev) k).getD [] := by
  induction edges with
  | nil => intro rev k x hx; exact hx
  | cons p rest ih =>
    intro rev k x hx
    exact ih _ k x (revFold_edges_mono p.1 p.2 rev k x hx)

theorem buildRevFold_mem (edges : Record (List GraphEdge)) :
    ∀ (rev : Record (List String)) {src : String} {outs : List GraphEdge} {e : GraphEdge},
      (src, outs) ∈ edges → e ∈ outs →
      src ∈ (rlookup (edges.foldl
            (fun rev p => p.2.foldl (fun rev e => revAdd rev e.target p.1) rev) rev)
          e.target).getD [] := by
  induction edges with
  | nil => intro rev src outs e hmem _; exact absurd hmem (List.not_mem_nil _)
  | cons p rest ih =>
    intro rev src outs e hmem he
    rcases List.mem_cons.mp hmem with heq | hmem
    · subst heq
      exact buildRevFold_mono rest _ e.target src (revFold_edges_mem src outs rev he)
    · exact ih _ hmem he

theorem buildReverseDeps_mem {edges : Record (List GraphEdge)} {src : String}
    {outs : List GraphEdge} {e : GraphEdge} (hmem : (src, outs) ∈ edges) (he : e ∈ outs) :
    src ∈ (rlookup (buildReverseDeps edges) e.target).getD [] :=
  buildRevFold_mem edges [] hmem he

theorem enqueueNew_spec (deps : List String) :
    ∀ (q o : List String), ∃ d : List String,
      (enqueueNew deps q o).1 = q ++ d ∧ (enqueueNew deps q o).2 = o ++ d ∧
      (∀ x ∈ d, x ∈ deps) ∧ d.Nodup ∧ (∀ x ∈ d, x ∉ o) ∧
      (∀ x ∈ deps, x ∈ o ++ d) := by
  induction deps with
  | nil =>
    intro q o
    exact ⟨[], by simp [enqueueNew], by simp [enqueueNew], by simp, List.nodup_nil,
      by simp, by simp⟩
  | cons s rest ih =>
    intro q o
    by_cases hs : s ∈ o
    · obtain ⟨d, h1, h2, h3, h4, h5, h6⟩ := ih q o
      have he : enqueueNew (s :: rest) q o = enqueueNew rest q o := by
        show (if s ∈ o then enqueueNew rest q o else enqueueNew rest (q ++ [s]) (o ++ [s]))
            = enqueueNew rest q o
        rw [if_pos hs]
      refine ⟨d, by rw [he]; exact h1, by rw [he]; exact h2,
        fun x hx => List.mem_cons_of_mem _ (h3 x hx), h4, h5, ?_⟩
      intro x hx
      rcases List.mem_cons.mp hx with rfl | hx
      · exact List.mem_append_left _ hs
      · exact h6 x hx
    · obtain ⟨d, h1, h2, h3, h4, h5, h6⟩ := ih (q ++ [s]) (o ++ [s])
      have he : enqueueNew (s :: rest) q o = enqueueNew rest (q ++ [s]) (o ++ [s]) := by
        show (if s ∈ o then enqueueNew rest q o else enqueueNew rest (q ++ [s]) (o ++ [s]))
            = enqueueNew rest (q ++ [s]) (o ++ [s])
        rw [if_neg hs]
      refine ⟨s :: d, ?_, ?_, ?_, ?_, ?_, ?_⟩
      · rw [he, h1, List.append_assoc]; rfl
      · rw [he, h2, List.append_assoc]; rfl
      · intro x hx
        rcases List.mem_cons.mp hx with rfl | hx
        · exact List.mem_cons_self _ _
        · exact List.mem_cons_of_mem _ (h3 x hx)
      · refine List.nodup_cons.mpr ⟨?_, h4⟩
        intro hsd
        exact h5 s hsd (List.mem_append_right o (by simp))
      · intro x hx
        rcases List.mem_cons.mp hx with rfl | hx
        · exact hs
        · intro hxo
          exact h5 x hx (List.mem_append_left _ hxo)
      · intro x hx
        rcases List.mem_cons.mp hx with rfl | hx
        · exact List.mem_append_right o (List.mem_cons_self _ _)
        · have := h6 x hx
          rwa [List.append_assoc, List.singleton_append] at this

theorem bfsLoop_mono (rev : Record (List String)) :
    ∀ (fuel : ℕ) (q out : List String) {x : String}, x ∈ out → x ∈ bfsLoop rev fuel q out := by
  intro fuel
  induction fuel with
  | zero => intro q out x hx; exact hx
  | succ n ih =>
    intro q out x hx
    cases q with
    | nil => exact hx
    | cons id rest =>
      obtain ⟨d, h1, h2, h3, h4, h5, h6⟩ := enqueueNew_spec ((rlookup rev id).getD []) rest out
      show x ∈ bfsLoop rev n (enqueueNew ((rlookup rev id).getD []) rest out).1
          (enqueueNew ((rlookup rev id).getD []) rest out).2
      apply ih
      rw [h2]
      exact List.mem_append_left _ hx

theorem bfsLoop_sound (rev : Record (List String)) (R : String → Prop)
    (hstep : ∀ a, R a → ∀ b ∈ (rlookup rev a).getD [], R b) :
    ∀ (fuel : ℕ) (q out : List String),
      (∀ x ∈ out, R x) → (∀ x ∈ q, x ∈ out) →
      ∀ x ∈ bfsLoop rev fuel q out, R x := by
  intro fuel
  induction fuel with
  | zero => intro q out hout _ x hx; exact hout x hx
  | succ n ih =>
    intro q out hout hq x hx
    cases q with
    | nil => exact hout x hx
    | cons id rest =>
      obtain ⟨d, h1, h2, h3, h4, h5, h6⟩ := enqueueNew_spec ((rlookup rev id).getD []) rest out
      have hid : R id := hout id (hq id (List.mem_cons_self id rest))
      refine ih (enqueueNew ((rlookup rev id).getD []) rest out).1
        (enqueueNew ((rlookup rev id).getD []) rest out).2 ?_ ?_ x hx
      · intro y hy
        rw [h2] at hy
        rcases List.mem_append.mp hy with hy | hy
        · exact hout y hy
        · exact hstep id hid y (h3 y hy)
      · intro y hy
        rw [h1] at hy
        rw [h2]
        rcases List.mem_append.mp hy with hy | hy
        · exact List.mem_append_left _ (hq y (List.mem_cons_of_mem _ hy))
        · exact List.mem_append_right _ hy

theorem nodup_subset_length {l m : List String} (hn : l.Nodup) (hsub : ∀ x ∈ l, x ∈ m) :
    l.length ≤ m.dedup.length := by
  have h1 : l.toFinset.card = l.length := List.toFinset_card_of_nodup hn
  have h2 : l.toFinset ⊆ m.toFinset := by
    intro x hx
    exact List.mem_toFinset.mpr (hsub x (List.mem_toFinset.mp hx))
  have h3 := Finset.card_le_card h2
  rw [h1, List.card_toFinset] at h3
  exact h3

theorem bfsLoop_closed (rev : Record (List String)) (univ : List String)
    (hrev : ∀ id : String, ∀ y ∈ (rlookup rev id).getD [], y ∈ univ) :
    ∀ (fuel : ℕ) (q out : List String),
      out.Nodup → (∀ x ∈ out, x ∈ univ) → (∀ x ∈ q, x ∈ out) →
      (∀ x ∈ out, x ∈ q ∨ ∀ y ∈ (rlookup rev x).getD [], y ∈ out) →
      q.length + (univ.dedup.length - out.length) < fuel →
      ∀ x ∈ bfsLoop rev fuel q out, ∀ y ∈ (rlookup rev x).getD [],
        y ∈ bfsLoop rev fuel q out := by
  intro fuel
  induction fuel with
  | zero => intro q out _ _ _ _ hphi; exact absurd hphi (Nat.not_lt_zero _)
  | succ n ih =>
    intro q out hnd huniv hq hJ hphi
    cases q with
    | nil =>
      intro x hx y hy
      rcases hJ x hx with hc | hc
      · exact absurd hc (List.not_mem_nil x)
      · exact hc y hy
    | cons id rest =>
      obtain ⟨d, h1, h2, h3, h4, h5, h6⟩ := enqueueNew_spec ((rlookup rev id).getD []) rest out
      have ho2nd : ((enqueueNew ((rlookup rev id).getD []) rest out).2).Nodup := by
        rw [h2]
        exact List.Nodup.append hnd h4 (fun a ha hb => h5 a hb ha)
      have ho2univ : ∀ x ∈ (enqueueNew ((rlookup rev id).getD []) rest out).2, x ∈ univ := by
        rw [h2]
        intro x hx
        rcases List.mem_append.mp hx with hx | hx
        · exact huniv x hx
        · exact hrev id x (h3 x hx)
      have hq2sub : ∀ x ∈ (enqueueNew ((rlookup rev id).getD []) rest out).1,
          x ∈ (enqueueNew ((rlookup rev id).getD []) rest out).2 := by
        rw [h1, h2]
        intro x hx
        rcases List.mem_append.mp hx with hx | hx
        · exact List.mem_append_left _ (hq x (List.mem_cons_of_mem _ hx))
        · exact List.mem_append_right _ hx
      have hJ2 : ∀ x ∈ (enqueueNew ((rlookup rev id).getD []) rest out).2,
          x ∈ (enqueueNew ((rlookup rev id).getD []) rest out).1 ∨
            ∀ y ∈ (rlookup rev x).getD [],
              y ∈ (enqueueNew ((rlookup rev id).getD []) rest out).2 := by
        rw [h1, h2]
        intro x hx
        rcases List.mem_append.mp hx with hx | hx
        · rcases hJ x hx with hcq | hcc
          · rcases List.mem_cons.mp hcq with rfl | hcq
            · exact Or.inr (fun y hy => h6 y hy)
            · exact Or.inl (List.mem_append_left _ hcq)
          · exact Or.inr (fun y hy => List.mem_append_left _ (hcc y hy))
        · exact Or.inl (List.mem_append_right _ hx)
      have hphi2 : (enqueueNew ((rlookup rev id).getD []) rest out).1.length +
          (univ.dedup.length - (enqueueNew ((rlookup rev id).getD []) rest out).2.length) < n := by
        have hlen : (enqueueNew ((rlookup rev id).getD []) rest out).2.length ≤
            univ.dedup.length := nodup_subset_length ho2nd ho2univ
        rw [h1, h2]
        rw [h2] at hlen
        simp only [List.length_append] at hlen ⊢
        simp only [List.length_cons] at hphi
        omega
      have hres := ih (enqueueNew ((rlookup rev id).getD []) rest out).1
        (enqueueNew ((rlookup rev id).getD []) rest out).2 ho2nd ho2univ hq2sub hJ2 hphi2
      intro x hx y hy
      exact hres x hx y hy

theorem mem_bfsUniv_of_rev {rev : Record (List String)} (start : List String)
    (id : String) {y : String} (hy : y ∈ (rlookup rev id).getD []) :
    y ∈ bfsUniv start rev := by
  cases hl : rlookup rev id with
  | none => rw [hl] at hy; simp at hy
  | some v =>
    rw [hl] at hy
    simp only [Option.getD_some] at hy
    refine List.mem_append_right _ (List.mem_flatten.mpr ⟨v, ?_, hy⟩)
    exact List.mem_map.mpr ⟨(id, v), rlookup_mem hl, rfl⟩

theorem transitiveReverseClosure_closed (start : List String) (rev : Record (List String)) :
    ∀ x ∈ transitiveReverseClosure start rev, ∀ y ∈ (rlookup rev x).getD [],
      y ∈ transitiveReverseClosure start rev := by
  obtain ⟨d, h1, h2, h3, h4, h5, h6⟩ := enqueueNew_spec start [] []
  have h1' : (enqueueNew start [] []).1 = d := by rw [h1]; rfl
  have h2' : (enqueueNew start [] []).2 = d := by rw [h2]; rfl
  show ∀ x ∈ bfsLoop rev (start.length + (bfsUniv start rev).length + 1)
      (enqueueNew start [] []).1 (enqueueNew start [] []).2, _
  refine bfsLoop_closed rev (bfsUniv start rev) ?_ _ _ _ ?_ ?_ ?_ ?_ ?_
  · intro id y hy
    exact mem_bfsUniv_of_rev start id hy
  · rw [h2']; exact h4
  · rw [h2']
    intro x hx
    exact List.mem_append_left _ (h3 x hx)
  · rw [h1', h2']; intro x hx; exact hx
  · rw [h1', h2']; intro x hx; exact Or.inl hx
  · rw [h1', h2']
    have hd : d.length ≤ start.length := by
      have := nodup_subset_length h4 h3
      exact le_trans this (List.dedup_sublist start).length_le
    have hU : (bfsUniv start rev).dedup.length ≤ (bfsUniv start rev).length :=
      (List.dedup_sublist _).length_le
    omega

theorem revReach_mem_closure (start : List String) (rev : Record (List String)) :
    ∀ {s x : String}, RevReach rev s x → s ∈ start →
      x ∈ transitiveReverseClosure start rev := by
  intro s x hr
  induction hr with
  | refl =>
    intro hz
    obtain ⟨d, h1, h2, h3, h4, h5, h6⟩ := enqueueNew_spec start [] []
    show _ ∈ bfsLoop rev (start.length + (bfsUniv start rev).length + 1)
        (enqueueNew start [] []).1 (enqueueNew start [] []).2
    apply bfsLoop_mono
    rw [h2]
    exact h6 _ hz
  | step hxy hz ih =>
    intro hs
    exact transitiveReverseClosure_closed start rev _ (ih hs) _ hz

theorem mem_transitiveReverseClosure (start : List String) (rev : Record (List String))
    (x : String) :
    x ∈ transitiveReverseClosure start rev ↔ ∃ s ∈ start, RevReach rev s x := by
  constructor
  · intro hx
    obtain ⟨d, h1, h2, h3, h4, h5, h6⟩ := enqueueNew_spec start [] []
    refine bfsLoop_sound rev (fun z => ∃ s ∈ start, RevReach rev s z) ?_
      (start.length + (bfsUniv start rev).length + 1)
      (enqueueNew start [] []).1 (enqueueNew start [] []).2 ?_ ?_ x hx
    · intro a ha b hb
      obtain ⟨s, hs, hr⟩ := ha
      exact ⟨s, hs, RevReach.step hr hb⟩
    · intro z hz
      rw [h2] at hz
      simp only [List.nil_append] at hz
      exact ⟨z, h3 z hz, RevReach.refl z⟩
    · intro z hz
      rw [h1] at hz
      rw [h2]
      simp only [List.nil_append] at hz ⊢
      exact hz
  · rintro ⟨s, hs, hr⟩
    exact revReach_mem_closure start rev hr hs

/-- C1: for every run with a previous graph, `planIncremental` computes
`dirtySourceIds` as the breadth-first transitive reverse-dependency closure of
the changed set over the previous graph's reversed edges, intersected with
`analyzableSourceIds`; reversed edges record each edge source under its
target; hence for a chain `A → B → C` in the previous graph with `C` changed,
`A` and `B` land in `dirtySourceIds` when analyzable, and *`C` does so only
when `C` itself is analyzable* (the spec's unconditional claim about `C` fails:
see the counterexample). -/
theorem planIncremental_dirty_spec (rehash : String → Option String)
    (analyzableSourceIds : List String) (currentNodes : Record GraphNode)
    (prev : DependencyGraph) :
    (∀ x : String,
      x ∈ (planIncremental rehash analyzableSourceIds currentNodes
          (some prev)).dirtySourceIds ↔
        x ∈ analyzableSourceIds ∧
          ∃ c ∈ (planIncremental rehash analyzableSourceIds currentNodes
              (some prev)).changedNodeIds,
            RevReach (buildReverseDeps prev.edges) c x) ∧
    (∀ (src : String) (outs : List GraphEdge) (e : GraphEdge),
        (src, outs) ∈ prev.edges → e ∈ outs →
        src ∈ (rlookup (buildReverseDeps prev.edges) e.target).getD []) ∧
    (∀ A B C : String,
        C ∈ (planIncremental rehash analyzableSourceIds currentNodes
            (some prev)).changedNodeIds →
        (∃ outsA, (A, outsA) ∈ prev.edges ∧ ∃ eB ∈ outsA, eB.target = B) →
        (∃ outsB, (B, outsB) ∈ prev.edges ∧ ∃ eC ∈ outsB, eC.target = C) →
        A ∈ analyzableSourceIds → B ∈ analyzableSourceIds →
        A ∈ (planIncremental rehash analyzableSourceIds currentNodes
            (some prev)).dirtySourceIds ∧
        B ∈ (planIncremental rehash analyzableSourceIds currentNodes
            (some prev)).dirtySourceIds ∧
        (C ∈ analyzableSourceIds →
          C ∈ (planIncremental rehash analyzableSourceIds currentNodes
              (some prev)).dirtySourceIds)) := by
  have hdirty : (planIncremental rehash analyzableSourceIds currentNodes
        (some prev)).dirtySourceIds
      = (transitiveReverseClosure
          (planIncremental rehash analyzableSourceIds currentNodes
            (some prev)).changedNodeIds
          (buildReverseDeps prev.edges)).filter
          (fun id => id ∈ analyzableSourceIds) := rfl
  have hiff : ∀ x : String,
      x ∈ (planIncremental rehash analyzableSourceIds currentNodes
          (some prev)).dirtySourceIds ↔
        x ∈ analyzableSourceIds ∧
          ∃ c ∈ (planIncremental rehash analyzableSourceIds currentNodes
              (some prev)).changedNodeIds,
            RevReach (buildReverseDeps prev.edges) c x := by
    intro x
    rw [hdirty, List.mem_filter, mem_transitiveReverseClosure]
    simp only [decide_eq_true_eq]
    exact and_comm
  refine ⟨hiff, fun src outs e hmem he => buildReverseDeps_mem hmem he, ?_⟩
  intro A B C hC hAB hBC hA hB
  obtain ⟨outsA, hmemA, eB, heB, htB⟩ := hAB
  obtain ⟨outsB, hmemB, eC, heC, htC⟩ := hBC
  have hBC' : B ∈ (rlookup (buildReverseDeps prev.edges) C).getD [] := by
    have := buildReverseDeps_mem hmemB heC
    rwa [htC] at this
  have hAB' : A ∈ (rlookup (buildReverseDeps prev.edges) B).getD [] := by
    have := buildReverseDeps_mem hmemA heB
    rwa [htB] at this
  have hrB : RevReach (buildReverseDeps prev.edges) C B :=
    RevReach.step (RevReach.refl C) hBC'
  have hrA : RevReach (buildReverseDeps prev.edges) C A :=
    RevReach.step hrB hAB'
  exact ⟨(hiff A).mpr ⟨hA, C, hC, hrA⟩, (hiff B).mpr ⟨hB, C, hC, hrB⟩,
    fun hCa => (hiff C).mpr ⟨hCa, C, hC, RevReach.refl C⟩⟩

/-- Witness for C1 at the `A → B → C` fixture with all three ids analyzable:
the chain conclusion puts `A`, `B` and `C` in `dirtySourceIds`. -/
theorem planIncremental_dirty_spec_witness :
    "A" ∈ (planIncremental (fun _ => none) ["A", "B", "C"] incCurFixture
        (some incPrevFixture)).dirtySourceIds ∧
    "B" ∈ (planIncremental (fun _ => none) ["A", "B", "C"] incCurFixture
        (some incPrevFixture)).dirtySourceIds ∧
    "C" ∈ (planIncremental (fun _ => none) ["A", "B", "C"] incCurFixture
        (some incPrevFixture)).dirtySourceIds := by
  have h := (planIncremental_dirty_spec (fun _ => none) ["A", "B", "C"] incCurFixture
      incPrevFixture).2.2 "A" "B" "C" (by decide)
      ⟨[⟨"B", .runtime, .explicit⟩], by decide, ⟨"B", .runtime, .explicit⟩, by decide, rfl⟩
      ⟨[⟨"C", .runtime, .explicit⟩], by decide, ⟨"C", .runtime, .explicit⟩, by decide, rfl⟩
      (by decide) (by decide)
  exact ⟨h.1, h.2.1, h.2.2 (by decide)⟩

/-- Counterexample to C1 as stated: in the fixture, `C` changed on disk and
`A → B → C` is a chain of runtime edges in the previous graph with `A` and `B`
analyzable, yet `C` is not in `dirtySourceIds` because `C` is not an
analyzable current source. -/
theorem planIncremental_chain_requires_analyzable_cex :
    "C" ∈ (planIncremental (fun _ => none) ["A", "B"] incCurFixture
        (some incPrevFixture)).changedNodeIds ∧
    ("A", [⟨"B", .runtime, .explicit⟩]) ∈ incPrevFixture.edges ∧
    ("B", [⟨"C", .runtime, .explicit⟩]) ∈ incPrevFixture.edges ∧
    "A" ∈ (planIncremental (fun _ => none) ["A", "B"] incCurFixture
        (some incPrevFixture)).dirtySourceIds ∧
    "B" ∈ (planIncremental (fun _ => none) ["A", "B"] incCurFixture
        (some incPrevFixture)).dirtySourceIds ∧
    "C" ∉ (planIncremental (fun _ => none) ["A", "B"] incCurFixture
        (some incPrevFixture)).dirtySourceIds := by decide

end StanContext

namespace StanContext

/-! ### Re-export traversal lemmas -/

theorem foldl_invariant {α β : Type} (f : β → α → β) (P : β → Prop) :
    ∀ (l : List α) (b : β), (∀ b a, a ∈ l → P b → P (f b a)) → P b →
      P (l.foldl f b) := by
  intro l
  induction l with
  | nil => intro b _ hb; exact hb
  | cons a rest ih =>
    intro b hstep hb
    exact ih (f b a) (fun b' a' ha' hb' => hstep b' a' (List.mem_cons_of_mem _ ha') hb')
      (hstep b a (List.mem_cons_self _ _) hb)

theorem mem_rset {α : Type} :
    ∀ {m : Record α} {k' : String} {v' : α} {p : String × α},
      p ∈ rset m k' v' → p ∈ m ∨ p = (k', v') := by
  intro m
  induction m with
  | nil =>
    intro k' v' p hp
    simp only [rset] at hp
    exact Or.inr (List.mem_singleton.mp hp)
  | cons q rest ih =>
    intro k' v' p hp
    obtain ⟨a, w⟩ := q
    simp only [rset] at hp
    by_cases hak : a = k'
    · rw [if_pos hak] at hp
      rcases List.mem_cons.mp hp with rfl | hp
      · subst hak; exact Or.inr rfl
      · exact Or.inl (List.mem_cons_of_mem _ hp)
    · rw [if_neg hak] at hp
      rcases List.mem_cons.mp hp with rfl | hp
      · exact Or.inl (List.mem_cons_self _ _)
      · rcases ih hp with hp | hp
        · exact Or.inl (List.mem_cons_of_mem _ hp)
        · exact Or.inr hp

theorem elemSourceName_mem (el : ExportElem) :
    elemSourceName el ∈ el.name :: el.propertyName.toList := by
  cases hp : el.propertyName with
  | none => simp [elemSourceName, hp]
  | some p => simp [elemSourceName, hp]

theorem uniqByKeyAux_spec {T : Type} (key : T → String) :
    ∀ (l : List T) (seen : List String),
      ((uniqByKeyAux key l seen).map key).Nodup ∧
      (∀ x ∈ uniqByKeyAux key l seen, key x ∉ seen) ∧
      List.Sublist (uniqByKeyAux key l seen) l ∧
      (∀ x ∈ l, key x ∈ seen ∨ key x ∈ (uniqByKeyAux key l seen).map key) := by
  intro l
  induction l with
  | nil =>
    intro seen
    refine ⟨by simp [uniqByKeyAux], by simp [uniqByKeyAux], ?_, by simp⟩
    simp [uniqByKeyAux]
  | cons it rest ih =>
    intro seen
    by_cases hs : key it ∈ seen
    · have he : uniqByKeyAux key (it :: rest) seen = uniqByKeyAux key rest seen := by
        show (if key it ∈ seen then uniqByKeyAux key rest seen
            else it :: uniqByKeyAux key rest (seen ++ [key it]))
          = uniqByKeyAux key rest seen
        rw [if_pos hs]
      obtain ⟨h1, h2, h3, h4⟩ := ih seen
      rw [he]
      refine ⟨h1, h2, h3.cons it, ?_⟩
      intro x hx
      rcases List.mem_cons.mp hx with rfl | hx
      · exact Or.inl hs
      · exact h4 x hx
    · have he : uniqByKeyAux key (it :: rest) seen
          = it :: uniqByKeyAux key rest (seen ++ [key it]) := by
        show (if key it ∈ seen then uniqByKeyAux key rest seen
            else it :: uniqByKeyAux key rest (seen ++ [key it]))
          = it :: uniqByKeyAux key rest (seen ++ [key it])
        rw [if_neg hs]
      obtain ⟨h1, h2, h3, h4⟩ := ih (seen ++ [key it])
      rw [he]
      refine ⟨?_, ?_, h3.cons₂ it, ?_⟩
      · simp only [List.map_cons]
        refine List.nodup_cons.mpr ⟨?_, h1⟩
        intro hmem
        rcases List.mem_map.mp hmem with ⟨y, hy, hky⟩
        exact h2 y hy (by rw [hky]; exact List.mem_append_right _ (by simp))
      · intro x hx
        rcases List.mem_cons.mp hx with rfl | hx
        · exact hs
        · intro hxo
          exact h2 x hx (List.mem_append_left _ hxo)
      · intro x hx
        rcases List.mem_cons.mp hx with rfl | hx
        · exact Or.inr (by simp)
        · rcases h4 x hx with hx' | hx'
          · rcases List.mem_append.mp hx' with hx' | hx'
            · exact Or.inl hx'
            · refine Or.inr ?_
              simp only [List.map_cons, List.mem_cons]
              exact Or.inl (List.mem_singleton.mp hx')
          · exact Or.inr (by simp only [List.map_cons, List.mem_cons]; exact Or.inr hx')

theorem uniqByKey_nodup {T : Type} (items : List T) (key : T → String) :
    ((uniqByKey items key).map key).Nodup :=
  (uniqByKeyAux_spec key items []).1

theorem length_filter_mono (p q : String → Bool) (h : ∀ a, p a = true → q a = true) :
    ∀ l : List String, (l.filter p).length ≤ (l.filter q).length := by
  intro l
  induction l with
  | nil => exact Nat.le_refl _
  | cons a rest ih =>
    simp only [List.filter_cons]
    cases hp : p a with
    | true =>
      rw [h a hp, if_pos rfl, if_pos rfl]
      simp only [List.length_cons]
      omega
    | false =>
      rw [if_neg (by simp)]
      cases hq : q a with
      | true =>
        rw [if_pos rfl]
        simp only [List.length_cons]
        omega
      | false =>
        rw [if_neg (by simp)]
        exact ih

theorem length_filter_strict (p q : String → Bool) (h : ∀ a, p a = true → q a = true) :
    ∀ (l : List String) (a : String), a ∈ l → q a = true → p a = false →
      (l.filter p).length < (l.filter q).length := by
  intro l
  induction l with
  | nil => intro a ha; exact absurd ha (List.not_mem_nil a)
  | cons b rest ih =>
    intro a ha hq hp
    simp only [List.filter_cons]
    rcases List.mem_cons.mp ha with rfl | ha
    · rw [hp, hq, if_neg (by simp), if_pos rfl]
      simp only [List.length_cons]
      exact Nat.lt_succ_of_le (length_filter_mono p q h rest)
    · have hlt := ih a ha hq hp
      cases hpb : p b with
      | true =>
        rw [h b hpb, if_pos rfl, if_pos rfl]
        simp only [List.length_cons]
        omega
      | false =>
        rw [if_neg (by simp)]
        cases hqb : q b with
        | true =>
          rw [if_pos rfl]
          simp only [List.length_cons]
          omega
        | false =>
          rw [if_neg (by simp)]
          exact hlt

theorem importBindings_named_mem (sf : SourceFile) :
    ∀ {lo spec iname : String},
      rlookup (collectImportBindings sf) lo = some (.named spec iname) →
      iname ∈ sfStrings sf := by
  intro lo spec iname h
  have hmem := rlookup_mem h
  have hP : ∀ k s i, (k, ImportedBinding.named s i) ∈ collectImportBindings sf →
      i ∈ sfStrings sf := by
    refine foldl_invariant _
      (fun out => ∀ k s i, (k, ImportedBinding.named s i) ∈ out → i ∈ sfStrings sf)
      sf.statements [] ?_ ?_
    · intro out st hst hout
      have hstr : ∀ x ∈ stmtStrings st, x ∈ sfStrings sf :=
        fun x hx => List.mem_flatMap.mpr ⟨st, hst, hx⟩
      cases st with
      | importDecl spec' dflt nb =>
        cases dflt with
        | none =>
          cases nb with
          | none => exact hout
          | some nbv =>
            cases nbv with
            | namespaceImport n =>
              intro k s i hk
              rcases mem_rset hk with hk | hk
              · exact hout k s i hk
              · simp at hk
            | namedImports elems =>
              show ∀ k s i, (k, ImportedBinding.named s i) ∈
                  elems.foldl (fun out el =>
                    rset out el.name (ImportedBinding.named spec' (elemSourceName el)))
                    out → i ∈ sfStrings sf
              refine foldl_invariant _
                (fun out => ∀ k s i, (k, ImportedBinding.named s i) ∈ out →
                  i ∈ sfStrings sf) elems out ?_ hout
              intro out' el hel hP' k s i hk
              rcases mem_rset hk with hk | hk
              · exact hP' k s i hk
              · rw [Prod.mk.injEq] at hk
                obtain ⟨-, hk2⟩ := hk
                injection hk2 with h1 h2
                rw [h2]
                refine hstr _ ?_
                exact List.mem_cons_of_mem _
                  (List.mem_flatMap.mpr ⟨el, hel, elemSourceName_mem el⟩)
        | some n0 =>
          have hout1 : ∀ k s i,
              (k, ImportedBinding.named s i) ∈ rset out n0 (.defaultImport spec') →
              i ∈ sfStrings sf := by
            intro k s i hk
            rcases mem_rset hk with hk | hk
            · exact hout k s i hk
            · simp at hk
          cases nb with
          | none => exact hout1
          | some nbv =>
            cases nbv with
            | namespaceImport n =>
              intro k s i hk
              rcases mem_rset hk with hk | hk
              · exact hout1 k s i hk
              · simp at hk
            | namedImports elems =>
              show ∀ k s i, (k, ImportedBinding.named s i) ∈
                  elems.foldl (fun out el =>
                    rset out el.name (ImportedBinding.named spec' (elemSourceName el)))
                    (rset out n0 (.defaultImport spec')) → i ∈ sfStrings sf
              refine foldl_invariant _
                (fun out => ∀ k s i, (k, ImportedBinding.named s i) ∈ out →
                  i ∈ sfStrings sf) elems _ ?_ hout1
              intro out' el hel hP' k s i hk
              rcases mem_rset hk with hk | hk
              · exact hP' k s i hk
              · rw [Prod.mk.injEq] at hk
                obtain ⟨-, hk2⟩ := hk
                injection hk2 with h1 h2
                rw [h2]
                refine hstr _ ?_
                exact List.mem_cons_of_mem _ (List.mem_append_right _
                  (List.mem_flatMap.mpr ⟨el, hel, elemSourceName_mem el⟩))
      | decl n isExp isDef => exact hout
      | moduleDecl n => exact hout
      | varStmt ns isExp => exact hout
      | exportAssignment isEq => exact hout
      | exportFrom spec' clause => exact hout
      | exportLocal clause => exact hout
    · intro k s i hk
      exact absurd hk (List.not_mem_nil _)
  exact hP lo spec iname hmem


theorem forwarding_symbol_name (sf : SourceFile) (name : String)
    (localNames : List String) :
    ∀ {spec iname : String},
      ForwardTarget.symbol spec iname ∈
        collectForwardingTargetsForName sf name localNames (collectImportBindings sf) →
      iname = name ∨ iname = "default" ∨ iname ∈ sfStrings sf := by
  intro spec iname hmem
  have hP : ∀ s i, ForwardTarget.symbol s i ∈
      collectForwardingTargetsForName sf name localNames (collectImportBindings sf) →
      i = name ∨ i = "default" ∨ i ∈ sfStrings sf := by
    refine foldl_invariant _
      (fun out => ∀ s i, ForwardTarget.symbol s i ∈ out →
        i = name ∨ i = "default" ∨ i ∈ sfStrings sf)
      sf.statements [] ?_ ?_
    · intro out st hst hout
      have hstr : ∀ x ∈ stmtStrings st, x ∈ sfStrings sf :=
        fun x hx => List.mem_flatMap.mpr ⟨st, hst, hx⟩
      cases st with
      | exportFrom spec' clause =>
        cases clause with
        | star =>
          intro s i h
          rcases List.mem_append.mp h with h | h
          · exact hout s i h
          · have heq := List.mem_singleton.mp h
            injection heq with h1 h2
            exact Or.inl h2
        | namespaceExport n =>
          show ∀ s i, ForwardTarget.symbol s i ∈
              (if (n == name) = true then out ++ [ForwardTarget.module spec'] else out) →
            i = name ∨ i = "default" ∨ i ∈ sfStrings sf
          by_cases hn : (n == name) = true
          · rw [if_pos hn]
            intro s i h
            rcases List.mem_append.mp h with h | h
            · exact hout s i h
            · exact absurd (List.mem_singleton.mp h) (by simp)
          · rw [if_neg hn]
            exact hout
        | named elems =>
          show ∀ s i, ForwardTarget.symbol s i ∈
              elems.foldl (fun out el =>
                if el.name == name then
                  out ++ [ForwardTarget.symbol spec' (elemSourceName el)]
                else out) out →
            i = name ∨ i = "default" ∨ i ∈ sfStrings sf
          refine foldl_invariant _
            (fun out => ∀ s i, ForwardTarget.symbol s i ∈ out →
              i = name ∨ i = "default" ∨ i ∈ sfStrings sf) elems out ?_ hout
          intro out' el hel hP'
          show ∀ s i, ForwardTarget.symbol s i ∈
              (if (el.name == name) = true then
                out' ++ [ForwardTarget.symbol spec' (elemSourceName el)]
              else out') →
            i = name ∨ i = "default" ∨ i ∈ sfStrings sf
          by_cases he : (el.name == name) = true
          · rw [if_pos he]
            intro s i h
            rcases List.mem_append.mp h with h | h
            · exact hP' s i h
            · have heq := List.mem_singleton.mp h
              injection heq with h1 h2
              rw [h2]
              exact Or.inr (Or.inr (hstr _ (List.mem_cons_of_mem _
                (List.mem_flatMap.mpr ⟨el, hel, elemSourceName_mem el⟩))))
          · rw [if_neg he]
            exact hP'
      | exportLocal clause =>
        cases clause with
        | star => exact hout
        | namespaceExport n => exact hout
        | named elems =>
          show ∀ s i, ForwardTarget.symbol s i ∈
              elems.foldl (fun out el =>
                if el.name == name then
                  if localNames.contains (elemSourceName el) then out
                  else
                    match rlookup (collectImportBindings sf) (elemSourceName el) with
                    | none => out
                    | some (.namespaceBinding spec) => out ++ [ForwardTarget.module spec]
                    | some (.defaultImport spec) =>
                      out ++ [ForwardTarget.symbol spec "default"]
                    | some (.named spec importName) =>
                      out ++ [ForwardTarget.symbol spec importName]
                else out) out →
            i = name ∨ i = "default" ∨ i ∈ sfStrings sf
          refine foldl_invariant _
            (fun out => ∀ s i, ForwardTarget.symbol s i ∈ out →
              i = name ∨ i = "default" ∨ i ∈ sfStrings sf) elems out ?_ hout
          intro out' el hel hP'
          show ∀ s i, ForwardTarget.symbol s i ∈
              (if (el.name == name) = true then
                if localNames.contains (elemSourceName el) = true then out'
                else
                  match rlookup (collectImportBindings sf) (elemSourceName el) with
                  | none => out'
                  | some (.namespaceBinding spec) => out' ++ [ForwardTarget.module spec]
                  | some (.defaultImport spec) =>
                    out' ++ [ForwardTarget.symbol spec "default"]
                  | some (.named spec importName) =>
                    out' ++ [ForwardTarget.symbol spec importName]
              else out') →
            i = name ∨ i = "default" ∨ i ∈ sfStrings sf
          by_cases he : (el.name == name) = true
          · rw [if_pos he]
            by_cases hc : localNames.contains (elemSourceName el) = true
            · rw [if_pos hc]
              exact hP'
            · rw [if_neg hc]
              cases hl : rlookup (collectImportBindings sf) (elemSourceName el) with
              | none =>
                exact hP'
              | some b =>
                cases b with
                | namespaceBinding sp =>
                  intro s i h
                  rcases List.mem_append.mp h with h | h
                  · exact hP' s i h
                  · exact absurd (List.mem_singleton.mp h) (by simp)
                | defaultImport sp =>
                  intro s i h
                  rcases List.mem_append.mp h with h | h
                  · exact hP' s i h
                  · have heq := List.mem_singleton.mp h
                    injection heq with h1 h2
                    exact Or.inr (Or.inl h2)
                | named sp ii =>
                  intro s i h
                  rcases List.mem_append.mp h with h | h
                  · exact hP' s i h
                  · have heq := List.mem_singleton.mp h
                    injection heq with h1 h2
                    rw [h2]
                    exact Or.inr (Or.inr (importBindings_named_mem sf hl))
          · rw [if_neg he]
            exact hP'
      | decl n isExp isDef => exact hout
      | moduleDecl n => exact hout
      | varStmt ns isExp => exact hout
      | exportAssignment isEq => exact hout
      | importDecl spec' dflt nb => exact hout
    · intro s i h
      exact absurd h (List.not_mem_nil _)
  exact hP spec iname hmem

theorem visit_memo_hit (resolve : String → String → Option String)
    (modules : Record SourceFile) (fuel : ℕ) (sf : SourceFile) (en : String)
    (stack : List String) (memo : Record (List DefiningExport))
    (v : List DefiningExport)
    (h : rlookup memo (visitKey sf.fileName en) = some v) :
    visit resolve modules (fuel + 1) sf en stack memo = some (v, memo) := by
  simp only [visit, h]

theorem visit_stack_hit (resolve : String → String → Option String)
    (modules : Record SourceFile) (fuel : ℕ) (sf : SourceFile) (en : String)
    (stack : List String) (memo : Record (List DefiningExport))
    (h1 : rlookup memo (visitKey sf.fileName en) = none)
    (h2 : visitKey sf.fileName en ∈ stack) :
    visit resolve modules (fuel + 1) sf en stack memo = some ([], memo) := by
  simp only [visit, h1]
  rw [if_pos h2]

theorem visit_main (resolve : String → String → Option String)
    (modules : Record SourceFile) (fuel : ℕ) (sf : SourceFile) (en : String)
    (stack : List String) (memo : Record (List DefiningExport))
    (h1 : rlookup memo (visitKey sf.fileName en) = none)
    (h2 : visitKey sf.fileName en ∉ stack) :
    visit resolve modules (fuel + 1) sf en stack memo =
      match visitFold
          (fun nextSf importName m =>
            visit resolve modules fuel nextSf importName
              (stack ++ [visitKey sf.fileName en]) m)
          resolve modules sf.fileName
          (collectForwardingTargetsForName sf en
            (collectLocalTopLevelDeclarationNames sf) (collectImportBindings sf))
          (if sourceFileDefinesExportName sf en
              (collectLocalTopLevelDeclarationNames sf) then
            [DefiningExport.symbol sf.fileName en]
          else []) memo with
      | none => none
      | some (res, memo') =>
        some (uniqByKey res definingExportKey,
          rset memo' (visitKey sf.fileName en) (uniqByKey res definingExportKey)) := by
  simp only [visit, h1]
  rw [if_neg h2]

theorem visitFold_isSome
    (recur : SourceFile → String → Record (List DefiningExport) →
      Option (List DefiningExport × Record (List DefiningExport)))
    (resolve : String → String → Option String) (modules : Record SourceFile)
    (fromFile : String) :
    ∀ (targets : List ForwardTarget) (res : List DefiningExport)
      (memo : Record (List DefiningExport)),
      (∀ spec iname abs nextSf, ForwardTarget.symbol spec iname ∈ targets →
        resolve fromFile spec = some abs → rlookup modules abs = some nextSf →
        ∀ m, (recur nextSf iname m).isSome = true) →
      (visitFold recur resolve modules fromFile targets res memo).isSome = true := by
  intro targets
  induction targets with
  | nil => intro res memo _; rfl
  | cons t rest ih =>
    intro res memo hrec
    have hrest : ∀ spec iname abs nextSf, ForwardTarget.symbol spec iname ∈ rest →
        resolve fromFile spec = some abs → rlookup modules abs = some nextSf →
        ∀ m, (recur nextSf iname m).isSome = true :=
      fun spec iname abs nextSf hm => hrec spec iname abs nextSf
        (List.mem_cons_of_mem _ hm)
    cases t with
    | module spec =>
      cases hres : resolve fromFile spec with
      | none =>
        simp only [visitFold, hres]
        exact ih res memo hrest
      | some abs =>
        cases hlk : rlookup modules abs with
        | none =>
          simp only [visitFold, hres, hlk]
          exact ih res memo hrest
        | some nextSf =>
          simp only [visitFold, hres, hlk]
          exact ih (res ++ [.module nextSf.fileName]) memo hrest
    | symbol spec iname =>
      cases hres : resolve fromFile spec with
      | none =>
        simp only [visitFold, hres]
        exact ih res memo hrest
      | some abs =>
        cases hlk : rlookup modules abs with
        | none =>
          simp only [visitFold, hres, hlk]
          exact ih res memo hrest
        | some nextSf =>
          have hs := hrec spec iname abs nextSf (List.mem_cons_self _ _) hres hlk memo
          rcases Option.isSome_iff_exists.mp hs with ⟨⟨r, memo'⟩, hr⟩
          simp only [visitFold, hres, hlk, hr]
          exact ih (res ++ r) memo' hrest

theorem goodFile_key_mem (entrySf : SourceFile) (modules : Record SourceFile)
    (entryName : String) {sf : SourceFile} {name : String}
    (hsf : sf = entrySf ∨ ∃ p ∈ modules, p.2 = sf)
    (hname : name ∈ allNames entrySf modules entryName) :
    visitKey sf.fileName name ∈ keyUniv entrySf modules entryName := by
  refine List.mem_flatMap.mpr ⟨sf.fileName, ?_, List.mem_map.mpr ⟨name, hname, rfl⟩⟩
  rcases hsf with rfl | ⟨p, hp, hpe⟩
  · exact List.mem_cons_self _ _
  · exact List.mem_cons_of_mem _ (List.mem_map.mpr ⟨p, hp, by rw [hpe]⟩)

theorem goodFile_strings_sub (entrySf : SourceFile) (modules : Record SourceFile)
    (entryName : String) {sf : SourceFile}
    (hsf : sf = entrySf ∨ ∃ p ∈ modules, p.2 = sf) :
    ∀ x ∈ sfStrings sf, x ∈ allNames entrySf modules entryName := by
  intro x hx
  rcases hsf with rfl | ⟨p, hp, hpe⟩
  · exact List.mem_cons_of_mem _ (List.mem_cons_of_mem _ (List.mem_append_left _ hx))
  · refine List.mem_cons_of_mem _ (List.mem_cons_of_mem _ (List.mem_append_right _ ?_))
    exact List.mem_flatMap.mpr ⟨p, hp, by rw [hpe]; exact hx⟩

theorem visit_isSome_of_fuel (resolve : String → String → Option String)
    (modules : Record SourceFile) (entrySf : SourceFile) (entryName : String) :
    ∀ (fuel : ℕ) (sf : SourceFile) (name : String) (stack : List String)
      (memo : Record (List DefiningExport)),
      (sf = entrySf ∨ ∃ p ∈ modules, p.2 = sf) →
      name ∈ allNames entrySf modules entryName →
      ((keyUniv entrySf modules entryName).filter
        (fun k => decide (k ∉ stack))).length < fuel →
      (visit resolve modules fuel sf name stack memo).isSome = true := by
  intro fuel
  induction fuel with
  | zero => intro sf name stack memo _ _ h; exact absurd h (Nat.not_lt_zero _)
  | succ n ih =>
    intro sf name stack memo hsf hname hcount
    cases hm : rlookup memo (visitKey sf.fileName name) with
    | some v =>
      rw [visit_memo_hit resolve modules n sf name stack memo v hm]
      rfl
    | none =>
      by_cases hst : visitKey sf.fileName name ∈ stack
      · rw [visit_stack_hit resolve modules n sf name stack memo hm hst]
        rfl
      · rw [visit_main resolve modules n sf name stack memo hm hst]
        have hkey : visitKey sf.fileName name ∈ keyUniv entrySf modules entryName :=
          goodFile_key_mem entrySf modules entryName hsf hname
        have hcount' : ((keyUniv entrySf modules entryName).filter
            (fun k => decide (k ∉ stack ++ [visitKey sf.fileName name]))).length < n := by
          have hstrict := length_filter_strict
            (fun k => decide (k ∉ stack ++ [visitKey sf.fileName name]))
            (fun k => decide (k ∉ stack))
            (by
              intro a ha
              simp only [decide_eq_true_eq] at ha ⊢
              exact fun hmem => ha (List.mem_append_left _ hmem))
            (keyUniv entrySf modules entryName) (visitKey sf.fileName name) hkey
            (decide_eq_true hst)
            (decide_eq_false (fun hn => hn (List.mem_append_right _ (by simp))))
          omega
        have hrec : ∀ spec iname abs nextSf,
            ForwardTarget.symbol spec iname ∈
              collectForwardingTargetsForName sf name
                (collectLocalTopLevelDeclarationNames sf) (collectImportBindings sf) →
            resolve sf.fileName spec = some abs → rlookup modules abs = some nextSf →
            ∀ m, (visit resolve modules n nextSf iname
                (stack ++ [visitKey sf.fileName name]) m).isSome = true := by
          intro spec iname abs nextSf hmem hres hlook m
          apply ih nextSf iname (stack ++ [visitKey sf.fileName name]) m
          · exact Or.inr ⟨(abs, nextSf), rlookup_mem hlook, rfl⟩
          · rcases forwarding_symbol_name sf name
              (collectLocalTopLevelDeclarationNames sf) hmem with h | h | h
            · rw [h]; exact hname
            · rw [h]; exact List.mem_cons_of_mem _ (List.mem_cons_self _ _)
            · exact goodFile_strings_sub entrySf modules entryName hsf _ h
          · exact hcount'
        have hfold := visitFold_isSome
          (fun nextSf importName m =>
            visit resolve modules n nextSf importName
              (stack ++ [visitKey sf.fileName name]) m)
          resolve modules sf.fileName
          (collectForwardingTargetsForName sf name
            (collectLocalTopLevelDeclarationNames sf) (collectImportBindings sf))
          (if sourceFileDefinesExportName sf name
              (collectLocalTopLevelDeclarationNames sf) then
            [DefiningExport.symbol sf.fileName name]
          else []) memo hrec
        rcases Option.isSome_iff_exists.mp hfold with ⟨⟨res, memo'⟩, hfr⟩
        rw [hfr]
        rfl

theorem visit_result_shape (resolve : String → String → Option String)
    (modules : Record SourceFile) (fuel : ℕ) (sf : SourceFile) (en : String)
    (stack : List String) (memo : Record (List DefiningExport))
    (r : List DefiningExport) (memo' : Record (List DefiningExport))
    (h1 : rlookup memo (visitKey sf.fileName en) = none)
    (h2 : visitKey sf.fileName en ∉ stack)
    (h3 : visit resolve modules (fuel + 1) sf en stack memo = some (r, memo')) :
    ∃ l m, r = uniqByKey l definingExportKey ∧
      memo' = rset m (visitKey sf.fileName en) r := by
  rw [visit_main resolve modules fuel sf en stack memo h1 h2] at h3
  split at h3
  · exact absurd h3 (by simp)
  · rename_i res m' heq
    rw [Option.some.injEq, Prod.mk.injEq] at h3
    obtain ⟨hr, hm⟩ := h3
    exact ⟨res, m', hr.symm, by rw [← hm, ← hr]⟩

/-- C3: `resolveDefiningExportsForName` terminates on every finite module
graph, cyclic forwarding included — with the fuel it chooses, `visit` always
returns a result (`isSome`); a `fileName\0exportName` key revisited while on
the DFS stack contributes the empty result for that branch and leaves the
memo unchanged; a memoized key returns its memoized result; a completed key
is memoized with exactly the returned list; and every returned list is
`uniqByKey`-deduplicated on `(kind, absPath[, exportName])`, keeping the
first occurrence of each key (it is a sublist of the accumulated results
whose mapped keys are duplicate-free and cover every accumulated result). -/
theorem resolveDefiningExportsForName_spec (resolve : String → String → Option String)
    (modules : Record SourceFile) (entrySf : SourceFile) (exportName : String) :
    (resolveDefiningExportsForName resolve modules entrySf exportName).isSome = true ∧
    (∀ r, resolveDefiningExportsForName resolve modules entrySf exportName = some r →
      (r.map definingExportKey).Nodup ∧
      ∃ l, r = uniqByKey l definingExportKey ∧ List.Sublist r l ∧
        ∀ x ∈ l, definingExportKey x ∈ r.map definingExportKey) ∧
    (∀ (fuel : ℕ) (sf : SourceFile) (en : String) (stack : List String)
        (memo : Record (List DefiningExport)),
      rlookup memo (visitKey sf.fileName en) = none →
      visitKey sf.fileName en ∈ stack →
      visit resolve modules (fuel + 1) sf en stack memo = some ([], memo)) ∧
    (∀ (fuel : ℕ) (sf : SourceFile) (en : String) (stack : List String)
        (memo : Record (List DefiningExport)) (v : List DefiningExport),
      rlookup memo (visitKey sf.fileName en) = some v →
      visit resolve modules (fuel + 1) sf en stack memo = some (v, memo)) ∧
    (∀ (fuel : ℕ) (sf : SourceFile) (en : String) (stack : List String)
        (memo : Record (List DefiningExport)) (r : List DefiningExport)
        (memo' : Record (List DefiningExport)),
      rlookup memo (visitKey sf.fileName en) = none →
      visitKey sf.fileName en ∉ stack →
      visit resolve modules (fuel + 1) sf en stack memo = some (r, memo') →
      rlookup memo' (visitKey sf.fileName en) = some r) := by
  have hcnt : ((keyUniv entrySf modules exportName).filter
      (fun k => decide (k ∉ ([] : List String)))).length <
      (keyUniv entrySf modules exportName).length + 1 := by
    have hfe : (keyUniv entrySf modules exportName).filter
        (fun k => decide (k ∉ ([] : List String))) = keyUniv entrySf modules exportName :=
      List.filter_eq_self.mpr (fun a _ => decide_eq_true (List.not_mem_nil a))
    rw [hfe]
    exact Nat.lt_succ_self _
  have hv := visit_isSome_of_fuel resolve modules entrySf exportName
    ((keyUniv entrySf modules exportName).length + 1) entrySf exportName [] []
    (Or.inl rfl) (List.mem_cons_self _ _) hcnt
  refine ⟨?_, ?_, ?_, ?_, ?_⟩
  · rcases Option.isSome_iff_exists.mp hv with ⟨x, hx⟩
    simp only [resolveDefiningExportsForName, hx]
    rfl
  · intro r hr
    simp only [resolveDefiningExportsForName] at hr
    rcases Option.map_eq_some'.mp hr with ⟨⟨r0, m0⟩, hvx, hfst⟩
    have hr0 : r0 = r := hfst
    subst hr0
    obtain ⟨l, m, hru, hmu⟩ := visit_result_shape resolve modules
      (keyUniv entrySf modules exportName).length entrySf exportName [] [] r0 m0 rfl
      (List.not_mem_nil _) hvx
    refine ⟨by rw [hru]; exact uniqByKey_nodup l definingExportKey, l, hru, ?_, ?_⟩
    · rw [hru]
      exact (uniqByKeyAux_spec definingExportKey l []).2.2.1
    · intro x hx
      have h4 := (uniqByKeyAux_spec definingExportKey l []).2.2.2 x hx
      rw [hru]
      exact h4.resolve_left (by simp)
  · intro fuel sf en stack memo h1 h2
    exact visit_stack_hit resolve modules fuel sf en stack memo h1 h2
  · intro fuel sf en stack memo v h
    exact visit_memo_hit resolve modules fuel sf en stack memo v h
  · intro fuel sf en stack memo r memo' h1 h2 h3
    obtain ⟨l, m, hru, hmu⟩ := visit_result_shape resolve modules fuel sf en stack memo
      r memo' h1 h2 h3
    rw [hmu, rlookup_rset, if_pos rfl]

/-- Witness for C3 at the cyclic `A.ts ⇄ B.ts` fixture: the traversal
terminates, a stacked key yields `([], memo)`, and a memoized key returns its
memoized value. -/
theorem resolveDefiningExportsForName_spec_witness :
    (resolveDefiningExportsForName reexResolveFixture reexModulesFixture
      reexEntryFixture "X").isSome = true ∧
    visit reexResolveFixture reexModulesFixture 1 reexEntryFixture "X"
      [visitKey "A.ts" "X"] [] = some ([], []) ∧
    visit reexResolveFixture reexModulesFixture 1 reexEntryFixture "X" []
      [(visitKey "A.ts" "X", [DefiningExport.symbol "B.ts" "X"])]
      = some ([DefiningExport.symbol "B.ts" "X"],
          [(visitKey "A.ts" "X", [DefiningExport.symbol "B.ts" "X"])]) := by
  have h := resolveDefiningExportsForName_spec reexResolveFixture reexModulesFixture
    reexEntryFixture "X"
  exact ⟨h.1,
    h.2.2.1 0 reexEntryFixture "X" [visitKey "A.ts" "X"] [] rfl (by decide),
    h.2.2.2.1 0 reexEntryFixture "X" []
      [(visitKey "A.ts" "X", [DefiningExport.symbol "B.ts" "X"])]
      [DefiningExport.symbol "B.ts" "X"] (by decide)⟩
